import Mathlib

/-!
Verification development for the Hyper Tree Grid (HTG) Moore super-cursor
traversal engine and two rendering-side routines of this repository.

The cursor classes' implementation files are not part of the supplied
sources (only `vtkHyperTreeGridNonOrientedMooreSuperCursorLight.h` is), so
the traversal engine is modelled from the specification document: grid
topology as a pure function of extents and dimensionality, per-tree
implicit-index child addressing with branching factor `2^dim`, cursors as
`(treeIndex, nodeIndex, level)` state machines, and Moore neighbor slots
resolved from grid topology composed with tree child addressing.

`vtkSSAOPass::Render` and
`vtkAnariCompositePolyDataMapperNode::RenderBlock` are embedded from their
C++ sources.
-/

namespace VTK

/-! ## Bit arithmetic for implicit child addressing

A child slot `s < 2^dim` encodes, in bit `a`, the offset of the child along
axis `a` inside its parent (quadtree/octree implicit addressing, spec 4.1).
-/

/-- Bit `a` of the natural number `s`. -/
def bit (s a : Nat) : Nat := s / 2 ^ a % 2

theorem bit_le_one (s a : Nat) : bit s a ≤ 1 :=
  Nat.lt_succ_iff.mp (Nat.mod_lt _ (by norm_num))

theorem bit_div_two (s a : Nat) : bit s (a + 1) = bit (s / 2) a := by
  unfold bit
  rw [Nat.div_div_eq_div_mul, pow_succ, mul_comm (2 ^ a) 2, ← Nat.div_div_eq_div_mul]

/-- Assemble a number below `2^d` from its `d` low bits (bit `a` given by `f a`). -/
def bitsToNat : Nat → (Nat → Nat) → Nat
  | 0, _ => 0
  | d + 1, f => f 0 + 2 * bitsToNat d (fun a => f (a + 1))

theorem bitsToNat_lt (d : Nat) (f : Nat → Nat) (hf : ∀ a, f a ≤ 1) :
    bitsToNat d f < 2 ^ d := by
  induction d generalizing f with
  | zero => simp [bitsToNat]
  | succ d ih =>
    have h := ih (fun a => f (a + 1)) (fun a => hf (a + 1))
    have h0 := hf 0
    simp only [bitsToNat, pow_succ]
    omega

theorem bitsToNat_bit (d s : Nat) (hs : s < 2 ^ d) : bitsToNat d (bit s) = s := by
  induction d generalizing s with
  | zero => simp_all [bitsToNat]
  | succ d ih =>
    have hfun : (fun a => bit s (a + 1)) = bit (s / 2) := funext fun a => bit_div_two s a
    have hdiv : s / 2 < 2 ^ d := by
      rw [Nat.div_lt_iff_lt_mul (by norm_num)]
      calc s < 2 ^ (d + 1) := hs
      _ = 2 ^ d * 2 := by rw [pow_succ]
    simp only [bitsToNat, hfun, ih (s / 2) hdiv]
    have : bit s 0 = s % 2 := by simp [bit]
    omega

theorem bit_bitsToNat (d a : Nat) (f : Nat → Nat) (hf : ∀ b, f b ≤ 1) (ha : a < d) :
    bit (bitsToNat d f) a = f a := by
  induction d generalizing f a with
  | zero => omega
  | succ d ih =>
    cases a with
    | zero =>
      have h0 := hf 0
      simp only [bitsToNat, bit, pow_zero, Nat.div_one]
      omega
    | succ a =>
      rw [bit_div_two]
      have hdiv : (f 0 + 2 * bitsToNat d fun b => f (b + 1)) / 2
          = bitsToNat d (fun b => f (b + 1)) := by
        have h0 := hf 0
        omega
      simp only [bitsToNat, hdiv]
      exact ih a (fun b => f (b + 1)) (fun b => hf (b + 1)) (by omega)

/-! ## Axis-wise coordinate arithmetic

A cell at refinement level `L` has, along each axis `a`, a global integer
coordinate in `[0, size_a * 2^L)`: descending to the child with slot `s`
doubles the coordinate and adds bit `a` of `s`.
-/

/-- Coordinate along axis `a` reached from start coordinate `x` by descending
along the child-slot path `p`. -/
def axisCoord (x a : Nat) (p : List Nat) : Nat :=
  p.foldl (fun c s => 2 * c + bit s a) x

@[simp] theorem axisCoord_nil (x a : Nat) : axisCoord x a [] = x := rfl

@[simp] theorem axisCoord_cons (x a s : Nat) (p : List Nat) :
    axisCoord x a (s :: p) = axisCoord (2 * x + bit s a) a p := rfl

@[simp] theorem axisCoord_append_single (x a : Nat) (p : List Nat) (s : Nat) :
    axisCoord x a (p ++ [s]) = 2 * axisCoord x a p + bit s a := by
  simp [axisCoord, List.foldl_append]

theorem axisCoord_shift (a : Nat) (p : List Nat) (x : Nat) :
    axisCoord x a p = x * 2 ^ p.length + axisCoord 0 a p := by
  induction p generalizing x with
  | nil => simp
  | cons s rest ih =>
    rw [axisCoord_cons, axisCoord_cons, ih (2 * x + bit s a), ih (2 * 0 + bit s a)]
    simp only [List.length_cons, pow_succ]
    ring

theorem axisCoord_zero_lt (a : Nat) (p : List Nat) :
    axisCoord 0 a p < 2 ^ p.length := by
  induction p using List.reverseRecOn with
  | nil => simp
  | append_singleton p s ih =>
    have hb := bit_le_one s a
    simp only [axisCoord_append_single, List.length_append, List.length_cons,
      List.length_nil, pow_succ]
    omega

/-- Digit extraction: bit `p.length - 1 - i` of the local coordinate along axis
`a` is bit `a` of the `i`-th slot of the path `p`. -/
theorem axisCoord_digit (a : Nat) (p : List Nat) (i : Nat) (hi : i < p.length) :
    axisCoord 0 a p / 2 ^ (p.length - 1 - i) % 2 = bit (p.getD i 0) a := by
  induction p generalizing i with
  | nil => simp at hi
  | cons s rest ih =>
    have hsplit : axisCoord 0 a (s :: rest)
        = axisCoord 0 a rest + bit s a * 2 ^ rest.length := by
      rw [axisCoord_cons, axisCoord_shift a rest (2 * 0 + bit s a)]
      ring
    cases i with
    | zero =>
      have hlt := axisCoord_zero_lt a rest
      have hb := bit_le_one s a
      simp only [List.length_cons, Nat.add_sub_cancel, Nat.sub_zero, hsplit,
        List.getD_cons_zero]
      rw [Nat.add_mul_div_right _ _ (Nat.pos_pow_of_pos rest.length (by norm_num)),
        Nat.div_eq_of_lt hlt]
      omega
    | succ i =>
      have hi' : i < rest.length := by simpa using hi
      have hexp : (s :: rest).length - 1 - (i + 1) = rest.length - 1 - i := by
        simp only [List.length_cons]; omega
      have hle : rest.length - 1 - i + (1 + i) = rest.length := by omega
      have hpow : bit s a * 2 ^ rest.length
          = bit s a * 2 ^ (1 + i) * 2 ^ (rest.length - 1 - i) := by
        rw [mul_assoc, ← pow_add, Nat.add_comm (1 + i), hle]
      rw [hsplit, hexp, List.getD_cons_succ, hpow,
        Nat.add_mul_div_right _ _ (Nat.pos_pow_of_pos _ (by norm_num))]
      have heven : bit s a * 2 ^ (1 + i) % 2 = 0 := by
        rw [Nat.add_comm 1 i, pow_succ, ← mul_assoc]
        exact Nat.mul_mod_left _ 2
      have hih := ih i hi'
      have hb := bit_le_one (rest.getD i 0) a
      omega

/-- Child slot at depth-from-bottom `j`, reassembled from bit `j` of each
axis's local coordinate `l a`. -/
def localSlot (d : Nat) (l : Nat → Nat) (j : Nat) : Nat :=
  bitsToNat d (fun a => l a / 2 ^ j % 2)

/-- The within-tree child-slot path of the cell with per-axis local
coordinates `l` at refinement level `L` (top-down). -/
def localPath (d L : Nat) (l : Nat → Nat) : List Nat :=
  (List.range L).map (fun i => localSlot d l (L - 1 - i))

@[simp] theorem localPath_length (d L : Nat) (l : Nat → Nat) :
    (localPath d L l).length = L := by simp [localPath]

theorem localSlot_lt (d : Nat) (l : Nat → Nat) (j : Nat) : localSlot d l j < 2 ^ d :=
  bitsToNat_lt d _ (fun a => Nat.lt_succ_iff.mp (Nat.mod_lt _ (by norm_num)))

/-- Round trip: reconstructing the path from the local coordinates of the cell
it denotes gives the path back. -/
theorem localPath_axisCoord (d : Nat) (p : List Nat) (hp : ∀ s ∈ p, s < 2 ^ d) :
    localPath d p.length (fun a => axisCoord 0 a p) = p := by
  apply List.ext_getElem
  · simp
  intro i h1 h2
  have hi : i < p.length := h2
  simp only [localPath, List.getElem_map, List.getElem_range, localSlot]
  have hdig : (fun a => axisCoord 0 a p / 2 ^ (p.length - 1 - i) % 2)
      = fun a => bit (p.getD i 0) a := by
    funext a
    exact axisCoord_digit a p i hi
  rw [hdig]
  have hmem : p.getD i 0 ∈ p := by
    rw [List.getD_eq_getElem p 0 hi]
    exact List.getElem_mem hi
  rw [bitsToNat_bit d _ (hp _ hmem), List.getD_eq_getElem p 0 hi]

/-! ## Grid topology and tree storage

Modelled from the spec (sections 3, 4.1, 4.2): the grid has a fixed
dimensionality and extents; trees sit at integer grid coordinates; each tree
is a `2^dim`-ary tree whose nodes are addressed by child-slot paths from the
root, with a branch/leaf predicate; adjacency between trees is a pure
function of grid coordinates and dimensionality.
-/

/-- Modelled from the spec: the Hyper Tree Grid (spec section 3 `Grid`, `Tree`,
`TreeNode`; implementation files for the cursor family are absent from the
sources). `refined t p = true` means the node with path `p` in the tree with
flat index `t` is a branch (has `2^dim` children); otherwise it is a leaf. -/
structure HyperTreeGrid where
  dim : Nat
  size : List Nat
  refined : Nat → List Nat → Bool

/-- Branching factor: 2 per axis (quadtree in 2D, octree in 3D; spec 4.1). -/
def HyperTreeGrid.factor (g : HyperTreeGrid) : Nat := 2 ^ g.dim

/-- Structural well-formedness of the grid (spec section 3: dimensionality 1/2/3,
extents fixed and positive). -/
def HyperTreeGrid.WF (g : HyperTreeGrid) : Prop :=
  1 ≤ g.dim ∧ g.dim ≤ 3 ∧ g.size.length = g.dim ∧ ∀ a < g.dim, 1 ≤ g.size.getD a 0

instance (g : HyperTreeGrid) : Decidable g.WF := by
  unfold HyperTreeGrid.WF
  infer_instance

/-- Row-major flat index of mixed-radix coordinates `c` with extents `sz`. -/
def flatIndex : List Nat → List Nat → Nat
  | _, [] => 0
  | [], _ :: _ => 0
  | sz :: szs, c :: cs => c + sz * flatIndex szs cs

/-- Flat tree index of the tree at grid coordinates `tc` (spec section 3:
"mapping from integer grid coordinates (or flat tree index) to Tree"). -/
def treeId (g : HyperTreeGrid) (tc : List Nat) : Nat := flatIndex g.size tc

theorem flatIndex_inj (sz c1 c2 : List Nat) (hl1 : c1.length = sz.length)
    (hl2 : c2.length = sz.length)
    (hb1 : ∀ i < sz.length, c1.getD i 0 < sz.getD i 0)
    (hb2 : ∀ i < sz.length, c2.getD i 0 < sz.getD i 0)
    (h : flatIndex sz c1 = flatIndex sz c2) : c1 = c2 := by
  induction sz generalizing c1 c2 with
  | nil =>
    rw [List.length_nil, List.length_eq_zero] at hl1 hl2
    rw [hl1, hl2]
  | cons s szs ih =>
    match c1, c2 with
    | x1 :: r1, x2 :: r2 =>
      have hx1 : x1 < s := by simpa using hb1 0 (by simp)
      have hx2 : x2 < s := by simpa using hb2 0 (by simp)
      simp only [flatIndex] at h
      have hmod : x1 = x2 := by
        have e1 : (x1 + s * flatIndex szs r1) % s = x1 := by
          rw [Nat.add_mul_mod_self_left, Nat.mod_eq_of_lt hx1]
        have e2 : (x2 + s * flatIndex szs r2) % s = x2 := by
          rw [Nat.add_mul_mod_self_left, Nat.mod_eq_of_lt hx2]
        rw [← e1, ← e2, h]
      subst hmod
      have hrest : flatIndex szs r1 = flatIndex szs r2 := by
        have hs : 0 < s := by omega
        have := Nat.eq_of_mul_eq_mul_left hs (by omega :
          s * flatIndex szs r1 = s * flatIndex szs r2)
        exact this
      have hr := ih r1 r2 (by simpa using hl1) (by simpa using hl2)
        (fun i hi => by simpa using hb1 (i + 1) (by simpa using hi))
        (fun i hi => by simpa using hb2 (i + 1) (by simpa using hi))
        hrest
      rw [hr]

/-- Implicit node index of the node with child-slot path `p` in a tree with
branching factor `f` (root is 0; child `s` of node `n` is `f*n + 1 + s`). -/
def nodeIndex (f : Nat) (p : List Nat) : Nat :=
  p.foldl (fun n s => f * n + 1 + s) 0

@[simp] theorem nodeIndex_nil (f : Nat) : nodeIndex f [] = 0 := rfl

theorem nodeIndex_append_single (f : Nat) (p : List Nat) (s : Nat) :
    nodeIndex f (p ++ [s]) = f * nodeIndex f p + 1 + s := by
  simp [nodeIndex, List.foldl_append]

theorem nodeIndex_pos (f : Nat) (p : List Nat) (s : Nat) :
    0 < nodeIndex f (p ++ [s]) := by
  rw [nodeIndex_append_single]
  omega

theorem nodeIndex_inj (f : Nat) (p1 p2 : List Nat)
    (h1 : ∀ s ∈ p1, s < f) (h2 : ∀ s ∈ p2, s < f)
    (h : nodeIndex f p1 = nodeIndex f p2) : p1 = p2 := by
  induction p1 using List.reverseRecOn generalizing p2 with
  | nil =>
    induction p2 using List.reverseRecOn with
    | nil => rfl
    | append_singleton q s _ =>
      have := nodeIndex_pos f q s
      simp only [nodeIndex_nil] at h
      omega
  | append_singleton q1 s1 ih =>
    induction p2 using List.reverseRecOn with
    | nil =>
      have := nodeIndex_pos f q1 s1
      simp only [nodeIndex_nil] at h
      omega
    | append_singleton q2 s2 _ =>
      rw [nodeIndex_append_single, nodeIndex_append_single] at h
      have hs1 : s1 < f := h1 s1 (by simp)
      have hs2 : s2 < f := h2 s2 (by simp)
      have hf : 0 < f := by omega
      have h' : f * nodeIndex f q1 + s1 = f * nodeIndex f q2 + s2 := by omega
      have e1 : (f * nodeIndex f q1 + s1) % f = s1 := by
        rw [Nat.mul_add_mod, Nat.mod_eq_of_lt hs1]
      have e2 : (f * nodeIndex f q2 + s2) % f = s2 := by
        rw [Nat.mul_add_mod, Nat.mod_eq_of_lt hs2]
      have hslot : s1 = s2 := by rw [← e1, ← e2, h']
      have d1 : (f * nodeIndex f q1 + s1) / f = nodeIndex f q1 := by
        rw [Nat.mul_add_div hf, Nat.div_eq_of_lt hs1, Nat.add_zero]
      have d2 : (f * nodeIndex f q2 + s2) / f = nodeIndex f q2 := by
        rw [Nat.mul_add_div hf, Nat.div_eq_of_lt hs2, Nat.add_zero]
      have hnode : nodeIndex f q1 = nodeIndex f q2 := by rw [← d1, ← d2, h']
      have hq := ih q2 (fun s hs => h1 s (by simp [hs])) (fun s hs => h2 s (by simp [hs]))
        hnode
      rw [hq, hslot]

theorem bitsToNat_congr (d : Nat) (f1 f2 : Nat → Nat) (h : ∀ a < d, f1 a = f2 a) :
    bitsToNat d f1 = bitsToNat d f2 := by
  induction d generalizing f1 f2 with
  | zero => rfl
  | succ d ih =>
    simp only [bitsToNat, h 0 (by omega),
      ih (fun a => f1 (a + 1)) (fun a => f2 (a + 1)) (fun a ha => h (a + 1) (by omega))]

theorem localPath_congr (d L : Nat) (l1 l2 : Nat → Nat) (h : ∀ a < d, l1 a = l2 a) :
    localPath d L l1 = localPath d L l2 := by
  unfold localPath localSlot
  apply List.map_congr_left
  intro i _
  exact bitsToNat_congr d _ _ (fun a ha => by rw [h a ha])

theorem getD_range_map {α : Type} (d i : Nat) (f : Nat → α) (x : α) (hi : i < d) :
    ((List.range d).map f).getD i x = f i := by
  rw [List.getD_eq_getElem _ x (by simpa using hi)]
  simp

theorem range_map_getD {α : Type} (d : Nat) (l : List α) (x : α) (hl : l.length = d) :
    (List.range d).map (fun a => l.getD a x) = l := by
  apply List.ext_getElem
  · simp [hl]
  intro i h1 h2
  simp only [List.getElem_map, List.getElem_range]
  rw [List.getD_eq_getElem l x h2]

/-- Modelled from the spec (4.1, 4.4 step 3): walk down the requested
child-slot path in tree `t` while the current node is a branch; stop early at
the first leaf, leaving the result "pinned at the coarsest available
ancestor". Returns the path actually reached. -/
def descend (g : HyperTreeGrid) (t : Nat) : List Nat → List Nat → List Nat
  | acc, [] => acc
  | acc, s :: rest => if g.refined t acc then descend g t (acc ++ [s]) rest else acc

theorem descend_full (g : HyperTreeGrid) (t : Nat) (p : List Nat) :
    ∀ acc : List Nat, (∀ i < p.length, g.refined t (acc ++ p.take i) = true) →
    descend g t acc p = acc ++ p := by
  induction p with
  | nil => intro acc _; simp [descend]
  | cons s rest ih =>
    intro acc h
    have h0 : g.refined t acc = true := by simpa using h 0 (by simp)
    rw [descend, h0, if_pos rfl, ih (acc ++ [s])]
    · simp
    intro i hi
    have := h (i + 1) (by simpa using Nat.succ_lt_succ hi)
    simpa [List.take_succ_cons, List.append_assoc] using this

/-- One Moore neighbor slot: the resolved `(treeIndex, nodeIndex)` pair plus
the refinement level actually reached (a reached level strictly below the
requested one is the "coarser-than-center" pinned state of spec 4.4 step 3). -/
structure NeighborSlot where
  tree : Nat
  node : Nat
  level : Nat
  deriving DecidableEq

/-- Modelled from the spec (4.2, 4.4): resolve the cell with global integer
coordinates `c` (one per axis) at refinement level `L`: the owning tree is
found by per-axis division by `2^L` (grid topology is a pure function of
coordinates), the within-tree path by decoding the per-axis remainders, and
the node by descending that path only as far as the tree is refined. -/
def resolveCell (g : HyperTreeGrid) (L : Nat) (c : List Nat) : NeighborSlot :=
  let tc := c.map (· / 2 ^ L)
  let t := treeId g tc
  let reached := descend g t [] (localPath g.dim L (fun a => c.getD a 0 % 2 ^ L))
  ⟨t, nodeIndex g.factor reached, reached.length⟩

/-! ## The Moore super-cursor

Modelled from the spec (4.3, 4.5): the central state is the tree the cursor
was initialized at plus the child-slot path from that tree's root;
`(treeIndex, nodeIndex, level)` are derived views. Neighbor slots are
functions of this state and the grid.
-/

/-- Modelled from the spec (4.3, 4.5; the class of
`vtkHyperTreeGridNonOrientedMooreSuperCursorLight.h`, whose implementation
file is absent from the sources): central state of the Moore super-cursor. -/
structure MooreSuperCursorLight where
  treeCoords : List Nat
  path : List Nat
  deriving DecidableEq

/-- Refinement level: depth of the current node within its tree (0 at root). -/
def MooreSuperCursorLight.level (c : MooreSuperCursorLight) : Nat := c.path.length

/-- The flat tree index of the cursor's tree. -/
def MooreSuperCursorLight.treeIndex (g : HyperTreeGrid) (c : MooreSuperCursorLight) :
    Nat := treeId g c.treeCoords

/-- The implicit node index of the cursor's current node. -/
def MooreSuperCursorLight.nodeIdx (g : HyperTreeGrid) (c : MooreSuperCursorLight) :
    Nat := nodeIndex g.factor c.path

/-- Modelled from the spec (4.3 `Initialize(grid, treeIndex, create)`): set the
cursor state to the root of the given tree (level 0). -/
def Initialize (g : HyperTreeGrid) (tc : List Nat) : MooreSuperCursorLight :=
  ⟨tc, []⟩

/-- Modelled from the spec (4.3, section 7 `PreconditionViolation`): the typed
errors of the precondition-checked cursor transitions. -/
inductive CursorError where
  | leafHasNoChildren
  | alreadyAtRoot
  deriving DecidableEq

/-- Modelled from the spec (4.3 `ToChild(childSlot)`): requires the current
node to be a branch; moves to the given child (level + 1); fails with
`LeafHasNoChildrenError` if the current node is a leaf. -/
def ToChild (g : HyperTreeGrid) (c : MooreSuperCursorLight) (s : Nat) :
    Except CursorError MooreSuperCursorLight :=
  if g.refined (treeId g c.treeCoords) c.path then
    .ok ⟨c.treeCoords, c.path ++ [s]⟩
  else
    .error .leafHasNoChildren

/-- Modelled from the spec (4.3 `ToParent()`): requires level > 0; fails with
`AlreadyAtRootError` at level 0. -/
def ToParent (c : MooreSuperCursorLight) : Except CursorError MooreSuperCursorLight :=
  if c.path = [] then .error .alreadyAtRoot
  else .ok ⟨c.treeCoords, c.path.dropLast⟩

/-- Well-formedness of a cursor state over a grid: coordinates have the grid's
arity and are in extents, path slots are valid child slots, and every proper
ancestor of the current node is a branch (the node exists in the tree). -/
def ValidCursor (g : HyperTreeGrid) (c : MooreSuperCursorLight) : Prop :=
  c.treeCoords.length = g.dim ∧
  (∀ a < g.dim, c.treeCoords.getD a 0 < g.size.getD a 0) ∧
  (∀ s ∈ c.path, s < g.factor) ∧
  (∀ i < c.path.length, g.refined (treeId g c.treeCoords) (c.path.take i) = true)

instance (g : HyperTreeGrid) (c : MooreSuperCursorLight) : Decidable (ValidCursor g c) := by
  unfold ValidCursor
  infer_instance

/-- Global coordinates (one per axis) of the cursor's central cell. -/
def centralCoords (g : HyperTreeGrid) (c : MooreSuperCursorLight) : List Nat :=
  (List.range g.dim).map (fun a => axisCoord (c.treeCoords.getD a 0) a c.path)

/-- Signed global coordinates of the cell one Moore step `δ` away from the
cursor's central cell, at the central cell's level. -/
def targetCoordsZ (g : HyperTreeGrid) (cur : MooreSuperCursorLight) (δ : List Int) :
    List Int :=
  (List.range g.dim).map
    (fun a => ((centralCoords g cur).getD a 0 : Int) + δ.getD a 0)

/-- A signed cell-coordinate vector lies inside the grid at level `L`:
each axis coordinate is in `[0, size_a * 2^L)`. -/
def InBoundsZ (g : HyperTreeGrid) (L : Nat) (c : List Int) : Prop :=
  ∀ a < g.dim, 0 ≤ c.getD a 0 ∧ c.getD a 0 < (g.size.getD a 0 : Int) * 2 ^ L

instance (g : HyperTreeGrid) (L : Nat) (c : List Int) : Decidable (InBoundsZ g L c) := by
  unfold InBoundsZ
  infer_instance

/-- Modelled from the spec (4.4, 4.5, 4.2): canonical from-scratch computation
of the neighbor slot in Moore direction `δ` (per-axis offsets in {-1,0,1}):
offset the central cell's global coordinates, return none if that leaves the
grid (spec section 7: `NoNeighbor` is an explicit absent state, not an
error), otherwise resolve the target cell through grid topology and tree
child addressing. -/
def neighborCell (g : HyperTreeGrid) (cur : MooreSuperCursorLight) (δ : List Int) :
    Option NeighborSlot :=
  if InBoundsZ g cur.path.length (targetCoordsZ g cur δ) then
    some (resolveCell g cur.path.length ((targetCoordsZ g cur δ).map Int.toNat))
  else none

/-- Modelled from the spec (4.2): `NeighborTree(treeIndex, direction) ->
optional TreeIndex`, a pure function of grid extents and dimensionality;
returns none at grid boundaries, never an error. -/
def NeighborTree (g : HyperTreeGrid) (tc : List Nat) (δ : List Int) : Option Nat :=
  let t : List Int := (List.range g.dim).map
    (fun a => (tc.getD a 0 : Int) + δ.getD a 0)
  if ∀ a < g.dim, 0 ≤ t.getD a 0 ∧ t.getD a 0 < (g.size.getD a 0 : Int) then
    some (treeId g (t.map Int.toNat))
  else none

@[simp] theorem centralCoords_getD (g : HyperTreeGrid) (c : MooreSuperCursorLight)
    (a : Nat) (ha : a < g.dim) :
    (centralCoords g c).getD a 0 = axisCoord (c.treeCoords.getD a 0) a c.path :=
  getD_range_map g.dim a _ 0 ha

/-- Resolving the global coordinates of a node that actually exists in its
tree recovers exactly that node (no pinning: the reached level equals the
requested one). -/
theorem resolveCell_exact (g : HyperTreeGrid) (tc p : List Nat)
    (htc : tc.length = g.dim)
    (hs : ∀ s ∈ p, s < g.factor)
    (href : ∀ i < p.length, g.refined (treeId g tc) (p.take i) = true) :
    resolveCell g p.length (centralCoords g ⟨tc, p⟩)
      = ⟨treeId g tc, nodeIndex g.factor p, p.length⟩ := by
  have hpow : (0 : Nat) < 2 ^ p.length := Nat.pos_pow_of_pos _ (by norm_num)
  have hdivmap : (centralCoords g ⟨tc, p⟩).map (· / 2 ^ p.length) = tc := by
    unfold centralCoords
    rw [List.map_map]
    have : ((fun c => c / 2 ^ p.length) ∘ fun a => axisCoord (tc.getD a 0) a p)
        = fun a => tc.getD a 0 := by
      funext a
      simp only [Function.comp_apply]
      rw [axisCoord_shift a p (tc.getD a 0), mul_comm, Nat.mul_add_div hpow,
        Nat.div_eq_of_lt (axisCoord_zero_lt a p), Nat.add_zero]
    rw [this, range_map_getD g.dim tc 0 htc]
  have hmod : localPath g.dim p.length
      (fun a => (centralCoords g ⟨tc, p⟩).getD a 0 % 2 ^ p.length) = p := by
    have hcongr := localPath_congr g.dim p.length
      (fun a => (centralCoords g ⟨tc, p⟩).getD a 0 % 2 ^ p.length)
      (fun a => axisCoord 0 a p) ?_
    · rw [hcongr]
      exact localPath_axisCoord g.dim p hs
    intro a ha
    show (centralCoords g ⟨tc, p⟩).getD a 0 % 2 ^ p.length = axisCoord 0 a p
    rw [centralCoords_getD g ⟨tc, p⟩ a ha, axisCoord_shift a p (tc.getD a 0),
      Nat.add_comm, Nat.add_mul_mod_self_right,
      Nat.mod_eq_of_lt (axisCoord_zero_lt a p)]
  unfold resolveCell
  simp only [hdivmap, hmod]
  rw [descend_full g (treeId g tc) p [] (fun i hi => by simpa using href i hi)]
  simp

/-! ## Traversal operation sequences and the cached-stack variant -/

/-- Modelled from the spec (4.3): one traversal operation of the cursor state
machine. -/
inductive CursorOp where
  | toChild (s : Nat)
  | toParent
  deriving DecidableEq

/-- Net level change of an operation (+1 for descend, -1 for ascend). -/
def CursorOp.levelDelta : CursorOp → Int
  | .toChild _ => 1
  | .toParent => -1

/-- Run one operation on the plain cursor. -/
def execOp (g : HyperTreeGrid) (c : MooreSuperCursorLight) :
    CursorOp → Except CursorError MooreSuperCursorLight
  | .toChild s => ToChild g c s
  | .toParent => ToParent c

/-- Run a sequence of operations, stopping at the first precondition
violation. -/
def execOps (g : HyperTreeGrid) (c : MooreSuperCursorLight) :
    List CursorOp → Except CursorError MooreSuperCursorLight
  | [] => .ok c
  | op :: rest =>
    match execOp g c op with
    | .ok c2 => execOps g c2 rest
    | .error e => .error e

/-- All offset vectors over the per-axis choice lists (axis 0 first). -/
def offsetProduct : List (List Int) → List (List Int)
  | [] => [[]]
  | cs :: rest => cs.flatMap (fun x => (offsetProduct rest).map (fun v => x :: v))

/-- The Moore neighborhood offsets: all per-axis offsets in {-1,0,1} with the
all-zero vector excluded (up to 26 neighbors in 3D, 8 in 2D; spec section 3). -/
def mooreOffsets (d : Nat) : List (List Int) :=
  (offsetProduct (List.replicate d [-1, 0, 1])).filter
    (fun δ => δ ≠ List.replicate d 0)

/-- The full current neighbor-slot set, canonically recomputed from the grid
(one slot per Moore direction; `none` is the absent/boundary state). -/
def computeSlots (g : HyperTreeGrid) (cur : MooreSuperCursorLight) :
    List (Option NeighborSlot) :=
  (mooreOffsets g.dim).map (neighborCell g cur)

/-- Modelled from the spec (4.4 `ToParent()`: "retain a small stack of prior
neighbor states"): super-cursor variant that keeps, besides the central
cursor, the current neighbor-slot set and the stack of the ancestors' sets. -/
structure MooreSuperCursorCached where
  central : MooreSuperCursorLight
  slots : List (Option NeighborSlot)
  stack : List (List (Option NeighborSlot))
  deriving DecidableEq

/-- Specification of the cache stack contents, built over the reversed path. -/
def stackSpecRev (g : HyperTreeGrid) (tc : List Nat) :
    List Nat → List (List (Option NeighborSlot))
  | [] => []
  | _ :: rev => computeSlots g ⟨tc, rev.reverse⟩ :: stackSpecRev g tc rev

/-- The cache stack a descent from the root along `p` leaves behind: the
neighbor sets of the strict ancestors of `p`, deepest first. -/
def stackSpec (g : HyperTreeGrid) (tc : List Nat) (p : List Nat) :
    List (List (Option NeighborSlot)) :=
  stackSpecRev g tc p.reverse

theorem stackSpec_concat (g : HyperTreeGrid) (tc p : List Nat) (s : Nat) :
    stackSpec g tc (p ++ [s]) = computeSlots g ⟨tc, p⟩ :: stackSpec g tc p := by
  simp [stackSpec, stackSpecRev]

theorem stackSpec_ne_nil (g : HyperTreeGrid) (tc p : List Nat) (hp : p ≠ []) :
    stackSpec g tc p
      = computeSlots g ⟨tc, p.dropLast⟩ :: stackSpec g tc p.dropLast := by
  induction p using List.reverseRecOn with
  | nil => exact absurd rfl hp
  | append_singleton q s _ =>
    rw [stackSpec_concat]
    simp [List.dropLast_concat]

/-- Initialize the cached cursor at a tree root: empty cache stack, neighbor
slots computed from the grid. -/
def InitializeCached (g : HyperTreeGrid) (tc : List Nat) : MooreSuperCursorCached :=
  ⟨Initialize g tc, computeSlots g (Initialize g tc), []⟩

/-- Modelled from the spec (4.4 steps 1-3, 4.5): descend: advance the central
cursor, recompute the child-level neighbor slots from the grid, and push the
previous slot set on the cache stack. -/
def ToChildCached (g : HyperTreeGrid) (c : MooreSuperCursorCached) (s : Nat) :
    Except CursorError MooreSuperCursorCached :=
  match ToChild g c.central s with
  | .ok cur2 => .ok ⟨cur2, computeSlots g cur2, c.slots :: c.stack⟩
  | .error e => .error e

/-- Modelled from the spec (4.4 `ToParent()`): ascend, restoring the
parent-level neighbor set cached by the matching descent (recomputing it
deterministically from the grid when no cached entry exists). -/
def ToParentCached (g : HyperTreeGrid) (c : MooreSuperCursorCached) :
    Except CursorError MooreSuperCursorCached :=
  match ToParent c.central with
  | .ok cur2 =>
    match c.stack with
    | prev :: rest => .ok ⟨cur2, prev, rest⟩
    | [] => .ok ⟨cur2, computeSlots g cur2, []⟩
  | .error e => .error e

/-- Run one operation on the cached cursor. -/
def execOpCached (g : HyperTreeGrid) (c : MooreSuperCursorCached) :
    CursorOp → Except CursorError MooreSuperCursorCached
  | .toChild s => ToChildCached g c s
  | .toParent => ToParentCached g c

/-- Run a sequence of operations on the cached cursor. -/
def execOpsCached (g : HyperTreeGrid) (c : MooreSuperCursorCached) :
    List CursorOp → Except CursorError MooreSuperCursorCached
  | [] => .ok c
  | op :: rest =>
    match execOpCached g c op with
    | .ok c2 => execOpsCached g c2 rest
    | .error e => .error e

/-- The cached cursor's consistency invariant: the live slot set is the
canonical recomputation for the central state, and the stack holds exactly
the ancestors' canonical slot sets. -/
def CachedInv (g : HyperTreeGrid) (c : MooreSuperCursorCached) : Prop :=
  c.slots = computeSlots g c.central ∧
  c.stack = stackSpec g c.central.treeCoords c.central.path

theorem execOpCached_inv (g : HyperTreeGrid) (c : MooreSuperCursorCached)
    (op : CursorOp) (c2 : MooreSuperCursorCached)
    (hinv : CachedInv g c) (h : execOpCached g c op = .ok c2) : CachedInv g c2 := by
  obtain ⟨hslots, hstack⟩ := hinv
  cases op with
  | toChild s =>
    simp only [execOpCached, ToChildCached, ToChild] at h
    by_cases hb : g.refined (treeId g c.central.treeCoords) c.central.path = true
    · simp only [hb, if_pos rfl] at h
      cases h
      refine ⟨rfl, ?_⟩
      simp only [hslots, hstack]
      rw [← stackSpec_concat]
    · simp only [Bool.not_eq_true] at hb
      simp [hb] at h
  | toParent =>
    simp only [execOpCached, ToParentCached, ToParent] at h
    by_cases hp : c.central.path = []
    · simp [hp] at h
    · rw [if_neg hp] at h
      rw [hstack, stackSpec_ne_nil g c.central.treeCoords c.central.path hp] at h
      simp only [Except.ok.injEq] at h
      cases h
      exact ⟨rfl, rfl⟩

theorem ToChild_ok_iff (g : HyperTreeGrid) (c : MooreSuperCursorLight) (s : Nat)
    (c2 : MooreSuperCursorLight) :
    ToChild g c s = .ok c2 ↔
      (g.refined (treeId g c.treeCoords) c.path = true ∧
        c2 = ⟨c.treeCoords, c.path ++ [s]⟩) := by
  unfold ToChild
  by_cases hb : g.refined (treeId g c.treeCoords) c.path = true
  · simp [hb, eq_comm]
  · simp [hb]

theorem ToParent_ok_iff (c c2 : MooreSuperCursorLight) :
    ToParent c = .ok c2 ↔
      (c.path ≠ [] ∧ c2 = ⟨c.treeCoords, c.path.dropLast⟩) := by
  unfold ToParent
  by_cases hp : c.path = []
  · simp [hp]
  · simp [hp, eq_comm]

theorem execOpCached_treeCoords (g : HyperTreeGrid) (c : MooreSuperCursorCached)
    (op : CursorOp) (c2 : MooreSuperCursorCached)
    (h : execOpCached g c op = .ok c2) :
    c2.central.treeCoords = c.central.treeCoords := by
  cases op with
  | toChild s =>
    simp only [execOpCached, ToChildCached] at h
    cases hc : ToChild g c.central s with
    | ok cur2 =>
      rw [hc] at h
      cases h
      have h2 := ((ToChild_ok_iff g c.central s cur2).mp hc).2
      rw [h2]
    | error e => rw [hc] at h; cases h
  | toParent =>
    simp only [execOpCached, ToParentCached] at h
    cases hc : ToParent c.central with
    | ok cur2 =>
      rw [hc] at h
      have h2 := ((ToParent_ok_iff c.central cur2).mp hc).2
      cases hs : c.stack with
      | cons prev rest => rw [hs] at h; cases h; rw [h2]
      | nil => rw [hs] at h; cases h; rw [h2]
    | error e => rw [hc] at h; cases h

theorem execOpsCached_inv (g : HyperTreeGrid) (ops : List CursorOp)
    (c c2 : MooreSuperCursorCached)
    (hinv : CachedInv g c) (h : execOpsCached g c ops = .ok c2) :
    CachedInv g c2 ∧ c2.central.treeCoords = c.central.treeCoords := by
  induction ops generalizing c with
  | nil =>
    simp only [execOpsCached, Except.ok.injEq] at h
    rw [← h]
    exact ⟨hinv, rfl⟩
  | cons op rest ih =>
    simp only [execOpsCached] at h
    cases hop : execOpCached g c op with
    | ok cmid =>
      rw [hop] at h
      obtain ⟨h1, h2⟩ := ih cmid (execOpCached_inv g c op cmid hinv hop) h
      exact ⟨h1, h2.trans (execOpCached_treeCoords g c op cmid hop)⟩
    | error e => rw [hop] at h; cases h

/-- Concrete test grid (spec section 8 concrete scenario): 2D, 2 x 2 trees,
every tree's root refined once into 4 children, every child a leaf. -/
def g22 : HyperTreeGrid := ⟨2, [2, 2], fun _ p => p.isEmpty⟩

/-! ## Claim theorems: traversal state machine (C1, C7, C8) -/

/-- C1: for every Moore super-cursor initialized on a stable hyper tree grid
and every precondition-respecting sequence of ToChild/ToParent operations
whose net level change is zero, the central cursor's (treeIndex, nodeIndex)
and every neighbor slot equal their values before the sequence; and at every
point (in particular after ascents replayed from the cached stack) the live
neighbor-slot set is identical to the canonical recomputation from the grid,
i.e. to what ToChild produced on the way down. -/
theorem c1_round_trip_identity (g : HyperTreeGrid) (tc : List Nat)
    (ops : List CursorOp) (cc : MooreSuperCursorCached)
    (h : execOpsCached g (InitializeCached g tc) ops = .ok cc) :
    cc.slots = computeSlots g cc.central ∧
    (cc.central.level = 0 →
      cc.central = Initialize g tc ∧
      cc.central.treeIndex g = (Initialize g tc).treeIndex g ∧
      cc.central.nodeIdx g = (Initialize g tc).nodeIdx g ∧
      cc.slots = (InitializeCached g tc).slots) := by
  have h0 : CachedInv g (InitializeCached g tc) := ⟨rfl, rfl⟩
  obtain ⟨⟨hslots, _⟩, htc⟩ := execOpsCached_inv g ops _ cc h0 h
  refine ⟨hslots, fun hlvl => ?_⟩
  have hpath : cc.central.path = [] := List.length_eq_zero.mp hlvl
  have hcentral : cc.central = Initialize g tc := by
    have hsplit : cc.central = ⟨cc.central.treeCoords, cc.central.path⟩ := rfl
    rw [hsplit, htc, hpath]
    rfl
  refine ⟨hcentral, by rw [hcentral], by rw [hcentral], ?_⟩
  rw [hslots, hcentral]
  rfl

/-- Witness for C1: concrete 2x2 quadtree grid, descend once and ascend. -/
theorem c1_round_trip_identity_witness :
    (InitializeCached g22 [0, 0]).slots
      = computeSlots g22 (InitializeCached g22 [0, 0]).central ∧
    (InitializeCached g22 [0, 0]).central = Initialize g22 [0, 0] ∧
    (InitializeCached g22 [0, 0]).central.treeIndex g22
      = (Initialize g22 [0, 0]).treeIndex g22 ∧
    (InitializeCached g22 [0, 0]).central.nodeIdx g22
      = (Initialize g22 [0, 0]).nodeIdx g22 ∧
    (InitializeCached g22 [0, 0]).slots = (InitializeCached g22 [0, 0]).slots :=
  ⟨(c1_round_trip_identity g22 [0, 0] [.toChild 0, .toParent]
      (InitializeCached g22 [0, 0]) (by rfl)).1,
   (c1_round_trip_identity g22 [0, 0] [.toChild 0, .toParent]
      (InitializeCached g22 [0, 0]) (by rfl)).2 rfl⟩

/-- C7: `ToChild(childSlot)` on a branch node succeeds, moving to the given
child with level + 1; on a leaf node it fails with the typed
`LeafHasNoChildrenError` result, never silently. -/
theorem c7_toChild_semantics (g : HyperTreeGrid) (c : MooreSuperCursorLight) (s : Nat) :
    (g.refined (treeId g c.treeCoords) c.path = true →
      ToChild g c s = .ok ⟨c.treeCoords, c.path ++ [s]⟩ ∧
      ∀ c2, ToChild g c s = .ok c2 → c2.level = c.level + 1) ∧
    (g.refined (treeId g c.treeCoords) c.path = false →
      ToChild g c s = .error .leafHasNoChildren) := by
  constructor
  · intro hb
    constructor
    · simp [ToChild, hb]
    · intro c2 h2
      rw [((ToChild_ok_iff g c s c2).mp h2).2]
      simp [MooreSuperCursorLight.level]
  · intro hb
    simp [ToChild, hb]

/-- Witness for C7: in the concrete grid, descending from a root (branch)
succeeds, and descending from a child (leaf) fails with the typed error. -/
theorem c7_toChild_semantics_witness :
    ToChild g22 (Initialize g22 [0, 0]) 3
      = .ok ⟨(Initialize g22 [0, 0]).treeCoords, (Initialize g22 [0, 0]).path ++ [3]⟩ ∧
    ToChild g22 ⟨[0, 0], [3]⟩ 0 = .error .leafHasNoChildren :=
  ⟨((c7_toChild_semantics g22 (Initialize g22 [0, 0]) 3).1 (by decide)).1,
   (c7_toChild_semantics g22 ⟨[0, 0], [3]⟩ 0).2 (by decide)⟩

/-- C8: `ToParent()` at level 0 (a tree root) fails with `AlreadyAtRootError`;
at level > 0 it succeeds and moves the cursor to the parent node. -/
theorem c8_toParent_semantics (c : MooreSuperCursorLight) :
    (c.level = 0 → ToParent c = .error .alreadyAtRoot) ∧
    (0 < c.level →
      ToParent c = .ok ⟨c.treeCoords, c.path.dropLast⟩ ∧
      ∀ c2, ToParent c = .ok c2 → c2.level = c.level - 1) := by
  constructor
  · intro h0
    have hp : c.path = [] := List.length_eq_zero.mp h0
    simp [ToParent, hp]
  · intro hpos
    have hp : c.path ≠ [] := by
      intro hnil
      rw [MooreSuperCursorLight.level, hnil] at hpos
      simp at hpos
    constructor
    · simp [ToParent, hp]
    · intro c2 h2
      rw [((ToParent_ok_iff c c2).mp h2).2]
      simp [MooreSuperCursorLight.level, List.length_dropLast]

/-- Witness for C8: at a concrete root the ascent fails; one level down it
succeeds and returns to the root. -/
theorem c8_toParent_semantics_witness :
    ToParent (Initialize g22 [0, 0]) = .error .alreadyAtRoot ∧
    ToParent ⟨[0, 0], [3]⟩
      = .ok ⟨([0, 0] : List Nat), ([3] : List Nat).dropLast⟩ :=
  ⟨(c8_toParent_semantics (Initialize g22 [0, 0])).1 (by decide),
   ((c8_toParent_semantics ⟨[0, 0], [3]⟩).2 (by decide)).1⟩

/-! ## The amortized sibling shortcut of `ToChild` (C4) -/

theorem offsetProduct_mem (choices : List (List Int)) (δ : List Int)
    (h : δ ∈ offsetProduct choices) :
    δ.length = choices.length ∧
      ∀ i < choices.length, δ.getD i 0 ∈ choices.getD i [] := by
  induction choices generalizing δ with
  | nil =>
    simp only [offsetProduct, List.mem_singleton] at h
    subst h
    exact ⟨rfl, fun i hi => by simp at hi⟩
  | cons cs rest ih =>
    simp only [offsetProduct, List.mem_flatMap, List.mem_map] at h
    obtain ⟨x, hx, v, hv, rfl⟩ := h
    obtain ⟨hlen, hget⟩ := ih v hv
    refine ⟨by simp [hlen], fun i hi => ?_⟩
    cases i with
    | zero => simpa using hx
    | succ i =>
      simp only [List.getD_cons_succ]
      exact hget i (by simpa using hi)

theorem mooreOffsets_spec (d : Nat) (δ : List Int) (h : δ ∈ mooreOffsets d) :
    δ.length = d ∧ ∀ a, δ.getD a 0 = -1 ∨ δ.getD a 0 = 0 ∨ δ.getD a 0 = 1 := by
  rw [mooreOffsets, List.mem_filter] at h
  obtain ⟨hlen, hget⟩ := offsetProduct_mem _ δ h.1
  rw [List.length_replicate] at hlen
  refine ⟨hlen, fun a => ?_⟩
  by_cases ha : a < d
  · have := hget a (by simpa [List.length_replicate] using ha)
    rw [List.getD_eq_getElem _ _ (by simpa [List.length_replicate] using ha),
      List.getElem_replicate] at this
    simpa using this
  · rw [List.getD_eq_default _ _ (by omega)]
    right; left; rfl

theorem axisCoord_lt_size (x a sz : Nat) (p : List Nat) (hx : x < sz) :
    axisCoord x a p < sz * 2 ^ p.length := by
  have hloc := axisCoord_zero_lt a p
  calc axisCoord x a p = x * 2 ^ p.length + axisCoord 0 a p := axisCoord_shift a p x
  _ < x * 2 ^ p.length + 2 ^ p.length := by omega
  _ = (x + 1) * 2 ^ p.length := by ring
  _ ≤ sz * 2 ^ p.length := Nat.mul_le_mul_right _ (by omega)

/-- The cursor one descent step below `cur`, at child slot `s`. -/
def childCursor (cur : MooreSuperCursorLight) (s : Nat) : MooreSuperCursorLight :=
  ⟨cur.treeCoords, cur.path ++ [s]⟩

/-- Modelled from the spec (4.4 step 2): the sibling's child slot reached from
child slot `s` by the per-axis offsets `δ` (meaningful when each shifted bit
stays in {0,1}). -/
def siblingSlot (d : Nat) (s : Nat) (δ : List Int) : Nat :=
  bitsToNat d (fun a => ((bit s a : Int) + δ.getD a 0).toNat)

/-- Modelled from the spec (4.4 step 2, 4.5): the amortized O(1) neighbor
computation of `ToChild`: when the neighbor in direction `δ` of the new
central node lies inside the same parent's children (a sibling), the slot is
computed purely from local sibling addressing with no grid lookup; otherwise
it crosses a tree or coarseness boundary and is recomputed canonically. -/
def toChildNeighborFast (g : HyperTreeGrid) (cur : MooreSuperCursorLight)
    (s : Nat) (δ : List Int) : Option NeighborSlot :=
  if ∀ a < g.dim,
      0 ≤ (bit s a : Int) + δ.getD a 0 ∧ (bit s a : Int) + δ.getD a 0 ≤ 1 then
    some ⟨treeId g cur.treeCoords,
      nodeIndex g.factor (cur.path ++ [siblingSlot g.dim s δ]),
      cur.path.length + 1⟩
  else
    neighborCell g (childCursor cur s) δ

/-- C4: for every interior node (no grid boundary within one step of the new
central node), the neighbor slots produced by `ToChild`'s amortized O(1)
sibling-addressing shortcut equal the slots obtained by independently
recomputing each neighbor cursor from the grid topology from scratch. -/
theorem c4_sibling_shortcut_canonical (g : HyperTreeGrid)
    (cur : MooreSuperCursorLight) (s : Nat)
    (hval : ValidCursor g cur)
    (hb : g.refined (treeId g cur.treeCoords) cur.path = true)
    (hs : s < g.factor)
    (hint : ∀ δ ∈ mooreOffsets g.dim, neighborCell g (childCursor cur s) δ ≠ none) :
    ∀ δ ∈ mooreOffsets g.dim,
      toChildNeighborFast g cur s δ = neighborCell g (childCursor cur s) δ := by
  obtain ⟨htclen, htcb, hpslots, hpref⟩ := hval
  intro δ hδ
  obtain ⟨hδlen, hδval⟩ := mooreOffsets_spec g.dim δ hδ
  rw [toChildNeighborFast]
  by_cases hsib : ∀ a < g.dim,
      0 ≤ (bit s a : Int) + δ.getD a 0 ∧ (bit s a : Int) + δ.getD a 0 ≤ 1
  swap
  · rw [if_neg hsib]
  rw [if_pos hsib]
  have hf_le : ∀ b, ((bit s b : Int) + δ.getD b 0).toNat ≤ 1 := by
    intro b
    by_cases hbd : b < g.dim
    · have := (hsib b hbd).2
      omega
    · rw [List.getD_eq_default _ _ (by omega)]
      have := bit_le_one s b
      omega
  have hqlt : siblingSlot g.dim s δ < g.factor := bitsToNat_lt g.dim _ hf_le
  have hqbit : ∀ a, a < g.dim →
      (bit (siblingSlot g.dim s δ) a : Int) = (bit s a : Int) + δ.getD a 0 := by
    intro a ha
    rw [siblingSlot, bit_bitsToNat g.dim a _ hf_le ha,
      Int.toNat_of_nonneg (hsib a ha).1]
  have htgt : targetCoordsZ g (childCursor cur s) δ
      = (centralCoords g (childCursor cur (siblingSlot g.dim s δ))).map Int.ofNat := by
    apply List.ext_getElem
    · simp [targetCoordsZ, centralCoords]
    intro i h1 h2
    have hi : i < g.dim := by
      simpa [targetCoordsZ] using h1
    simp only [targetCoordsZ, centralCoords, List.getElem_map, List.getElem_range]
    rw [getD_range_map g.dim i _ 0 hi]
    show ((axisCoord (cur.treeCoords.getD i 0) i (cur.path ++ [s]) : Nat) : Int)
        + δ.getD i 0
      = Int.ofNat (axisCoord (cur.treeCoords.getD i 0) i
          (cur.path ++ [siblingSlot g.dim s δ]))
    rw [axisCoord_append_single, axisCoord_append_single]
    simp only [Int.ofNat_eq_natCast]
    push_cast
    rw [hqbit i hi]
    ring
  have hLs : (childCursor cur s).path.length = cur.path.length + 1 := by
    simp [childCursor]
  have hlenc : (centralCoords g (childCursor cur (siblingSlot g.dim s δ))).length
      = g.dim := by
    simp [centralCoords]
  have hbound : InBoundsZ g (childCursor cur s).path.length
      (targetCoordsZ g (childCursor cur s) δ) := by
    rw [htgt]
    intro a ha
    have hmaplen : a < ((centralCoords g
        (childCursor cur (siblingSlot g.dim s δ))).map Int.ofNat).length := by
      rw [List.length_map, hlenc]
      exact ha
    rw [List.getD_eq_getElem _ 0 hmaplen, List.getElem_map]
    have hax : (centralCoords g (childCursor cur (siblingSlot g.dim s δ))).get
        ⟨a, by rw [hlenc]; exact ha⟩
        = axisCoord (cur.treeCoords.getD a 0) a
            (cur.path ++ [siblingSlot g.dim s δ]) := by
      simp [centralCoords, childCursor]
    rw [List.get_eq_getElem] at hax
    rw [hax, hLs]
    have hlt := axisCoord_lt_size (cur.treeCoords.getD a 0) a (g.size.getD a 0)
      (cur.path ++ [siblingSlot g.dim s δ]) (htcb a ha)
    rw [List.length_append, List.length_cons, List.length_nil] at hlt
    simp only [Int.ofNat_eq_natCast]
    constructor
    · exact Int.natCast_nonneg _
    · exact_mod_cast hlt
  rw [neighborCell, if_pos hbound]
  have hmapmap : (targetCoordsZ g (childCursor cur s) δ).map Int.toNat
      = centralCoords g (childCursor cur (siblingSlot g.dim s δ)) := by
    rw [htgt, List.map_map]
    have hcomp : (Int.toNat ∘ Int.ofNat) = id := by
      funext n
      simp
    rw [hcomp, List.map_id]
  rw [hmapmap]
  have hres := resolveCell_exact g cur.treeCoords
    (cur.path ++ [siblingSlot g.dim s δ]) htclen
    (fun t ht => by
      rcases List.mem_append.mp ht with h1 | h1
      · exact hpslots t h1
      · rw [List.mem_singleton] at h1
        rw [h1]
        exact hqlt)
    (fun i hi => by
      rw [List.length_append, List.length_cons, List.length_nil] at hi
      by_cases hiL : i < cur.path.length
      · rw [List.take_append_of_le_length (by omega)]
        exact hpref i hiL
      · have hieq : i = cur.path.length := by omega
        rw [hieq, List.take_append_of_le_length (by omega), List.take_length]
        exact hb)
  rw [List.length_append, List.length_cons, List.length_nil] at hres
  rw [hLs]
  exact congrArg some hres.symm

/-- Witness for C4: concrete interior child (child 3 of tree (0,0) in the 2x2
quadtree grid) and the concrete diagonal direction (1,1). -/
theorem c4_sibling_shortcut_canonical_witness :
    toChildNeighborFast g22 (Initialize g22 [0, 0]) 3 [1, 1]
      = neighborCell g22 (childCursor (Initialize g22 [0, 0]) 3) [1, 1] :=
  c4_sibling_shortcut_canonical g22 (Initialize g22 [0, 0]) 3 (by decide) (by decide)
    (by decide) (by decide) [1, 1] (by decide)

/-! ## Diagonal composition of axis-aligned neighbor lookups (C3) -/

/-- Add `σ` to component `a` of a signed cell-coordinate vector. -/
def addAt : List Int → Nat → Int → List Int
  | [], _, _ => []
  | x :: xs, 0, σ => (x + σ) :: xs
  | x :: xs, a + 1, σ => x :: addAt xs a σ

@[simp] theorem addAt_length (c : List Int) (a : Nat) (σ : Int) :
    (addAt c a σ).length = c.length := by
  induction c generalizing a with
  | nil => rfl
  | cons x xs ih =>
    cases a with
    | zero => simp [addAt]
    | succ a => simp [addAt, ih]

theorem addAt_comm (c : List Int) (a : Nat) (σa : Int) (b : Nat) (σb : Int) :
    addAt (addAt c a σa) b σb = addAt (addAt c b σb) a σa := by
  induction c generalizing a b with
  | nil => rfl
  | cons x xs ih =>
    cases a with
    | zero =>
      cases b with
      | zero =>
        simp only [addAt]
        congr 1
        ring
      | succ b => simp [addAt]
    | succ a =>
      cases b with
      | zero => simp [addAt]
      | succ b => simp [addAt, ih]

theorem addAt_getD (c : List Int) (a : Nat) (σ : Int) (i : Nat) (hi : i < c.length) :
    (addAt c a σ).getD i 0 = c.getD i 0 + (if i = a then σ else 0) := by
  induction c generalizing a i with
  | nil => simp at hi
  | cons x xs ih =>
    cases a with
    | zero =>
      cases i with
      | zero => simp [addAt]
      | succ i => simp [addAt]
    | succ a =>
      cases i with
      | zero => simp [addAt]
      | succ i =>
        simp only [addAt, List.getD_cons_succ]
        rw [ih a i (by simpa using hi)]
        by_cases hia : i = a
        · simp [hia]
        · simp [hia, fun h => hia (Nat.succ_injective h)]

/-- Modelled from the spec (4.5): one axis-aligned neighbor lookup at the cell
level: move one cell along axis `a` (signed offset `σ`) at level `L`, defined
only when the target stays inside the grid. -/
def axisStep (g : HyperTreeGrid) (L : Nat) (a : Nat) (σ : Int) (c : List Int) :
    Option (List Int) :=
  if InBoundsZ g L (addAt c a σ) then some (addAt c a σ) else none

theorem axisStep_ok (g : HyperTreeGrid) (L : Nat) (a : Nat) (σ : Int)
    (c y : List Int) (h : axisStep g L a σ c = some y) :
    y = addAt c a σ ∧ InBoundsZ g L y := by
  rw [axisStep] at h
  by_cases hin : InBoundsZ g L (addAt c a σ)
  · rw [if_pos hin] at h
    cases h
    exact ⟨rfl, hin⟩
  · rw [if_neg hin] at h
    cases h


/-- Modelled from the spec (4.5): compose a sequence of axis-aligned neighbor
lookups, each given as (axis, signed offset), at level `L`: the composition
is defined only when every intermediate target stays inside the grid. A
diagonal direction of the Moore neighborhood is such a composition of two
(edge-sharing) or three (corner-sharing) axis-aligned lookups. -/
def axisSteps (g : HyperTreeGrid) (L : Nat) :
    List (Nat × Int) → List Int → Option (List Int)
  | [], c => some c
  | s :: rest, c => (axisStep g L s.1 s.2 c).bind (axisSteps g L rest)

/-- The combined offset vector of a sequence of axis-aligned steps: component
`i` accumulates the signed offsets of the steps along axis `i`. -/
def stepsOffset (d : Nat) (steps : List (Nat × Int)) : List Int :=
  (List.range d).map
    (fun i => (steps.map (fun s => if s.1 = i then s.2 else 0)).sum)

theorem foldl_addAt_length (steps : List (Nat × Int)) (c : List Int) :
    (steps.foldl (fun acc s => addAt acc s.1 s.2) c).length = c.length := by
  induction steps generalizing c with
  | nil => rfl
  | cons s rest ih =>
    rw [List.foldl_cons, ih (addAt c s.1 s.2), addAt_length]

theorem foldl_addAt_getD (steps : List (Nat × Int)) (c : List Int) (i : Nat)
    (hi : i < c.length) :
    (steps.foldl (fun acc s => addAt acc s.1 s.2) c).getD i 0
      = c.getD i 0 + (steps.map (fun s => if s.1 = i then s.2 else 0)).sum := by
  induction steps generalizing c with
  | nil => simp
  | cons s rest ih =>
    rw [List.foldl_cons, List.map_cons, List.sum_cons,
      ih (addAt c s.1 s.2) (by rw [addAt_length]; exact hi),
      addAt_getD c s.1 s.2 i hi]
    have hswap : (if i = s.1 then s.2 else 0) = (if s.1 = i then s.2 else 0) := by
      by_cases h : i = s.1
      · simp [h]
      · simp [h, Ne.symm h]
    rw [hswap]
    ring

theorem axisSteps_ok (g : HyperTreeGrid) (L : Nat) (steps : List (Nat × Int))
    (c y : List Int) (h : axisSteps g L steps c = some y) :
    y = steps.foldl (fun acc s => addAt acc s.1 s.2) c ∧
    (steps = [] ∨ InBoundsZ g L y) := by
  induction steps generalizing c with
  | nil =>
    simp only [axisSteps, Option.some.injEq] at h
    rw [← h]
    exact ⟨rfl, Or.inl rfl⟩
  | cons s rest ih =>
    simp only [axisSteps] at h
    cases hx : axisStep g L s.1 s.2 c with
    | none =>
      rw [hx] at h
      cases h
    | some x =>
      rw [hx] at h
      simp only [Option.some_bind] at h
      obtain ⟨hxe, hxb⟩ := axisStep_ok g L s.1 s.2 c x hx
      obtain ⟨hfold, hbound⟩ := ih x h
      refine ⟨by rw [List.foldl_cons, ← hxe]; exact hfold, Or.inr ?_⟩
      rcases hbound with hrest | hb
      · rw [hfold, hrest, List.foldl_nil]
        exact hxb
      · exact hb

theorem targetCoordsZ_steps (g : HyperTreeGrid) (cur : MooreSuperCursorLight)
    (steps : List (Nat × Int)) :
    targetCoordsZ g cur (stepsOffset g.dim steps)
      = steps.foldl (fun acc s => addAt acc s.1 s.2)
          ((centralCoords g cur).map Int.ofNat) := by
  apply List.ext_getElem
  · rw [foldl_addAt_length]
    simp [targetCoordsZ, centralCoords]
  intro i h1 h2
  have hi : i < g.dim := by simpa [targetCoordsZ] using h1
  have hbase : i < ((centralCoords g cur).map Int.ofNat).length := by
    simp [centralCoords, hi]
  rw [← List.getD_eq_getElem _ 0 h1, ← List.getD_eq_getElem _ 0 h2]
  rw [targetCoordsZ, getD_range_map g.dim i _ 0 hi]
  rw [stepsOffset, getD_range_map g.dim i _ 0 hi]
  rw [foldl_addAt_getD steps _ i hbase]
  rw [List.getD_eq_getElem _ 0 hbase, List.getElem_map,
    ← List.getD_eq_getElem (centralCoords g cur) 0 (by simpa [centralCoords] using hi)]
  simp only [Int.ofNat_eq_natCast]

/-- C3: for every cell position of a Moore super-cursor and every diagonal
(edge- or corner-sharing) direction, composing the constituent axis-aligned
neighbor lookups — two for an edge-sharing diagonal, three for a
corner-sharing one, or any sequence — in any order yields the same diagonal
neighbor cursor whenever the compositions are defined: the two orders reach
the same cell, carry the same combined offset, and resolve to the canonical
Moore slot of that combined diagonal offset. -/
theorem c3_diagonal_composition_commutes (g : HyperTreeGrid)
    (cur : MooreSuperCursorLight) (steps1 steps2 : List (Nat × Int))
    (y1 y2 : List Int)
    (hperm : steps1.Perm steps2) (hne : steps1 ≠ [])
    (h1 : axisSteps g cur.path.length steps1
        ((centralCoords g cur).map Int.ofNat) = some y1)
    (h2 : axisSteps g cur.path.length steps2
        ((centralCoords g cur).map Int.ofNat) = some y2) :
    y1 = y2 ∧
    resolveCell g cur.path.length (y1.map Int.toNat)
      = resolveCell g cur.path.length (y2.map Int.toNat) ∧
    stepsOffset g.dim steps1 = stepsOffset g.dim steps2 ∧
    neighborCell g cur (stepsOffset g.dim steps1)
      = some (resolveCell g cur.path.length (y1.map Int.toNat)) := by
  obtain ⟨hfold1, hbound1⟩ := axisSteps_ok g cur.path.length steps1 _ y1 h1
  obtain ⟨hfold2, _⟩ := axisSteps_ok g cur.path.length steps2 _ y2 h2
  have hcomm : y1 = y2 := by
    rw [hfold1, hfold2]
    exact hperm.foldl_eq'
      (fun x _ y _ z => addAt_comm z x.1 x.2 y.1 y.2) _
  have hb1 : InBoundsZ g cur.path.length y1 := by
    rcases hbound1 with h | h
    · exact absurd h hne
    · exact h
  have hoff : stepsOffset g.dim steps1 = stepsOffset g.dim steps2 := by
    unfold stepsOffset
    apply List.map_congr_left
    intro i _
    exact (hperm.map (fun s => if s.1 = i then s.2 else 0)).sum_eq
  refine ⟨hcomm, by rw [hcomm], hoff, ?_⟩
  have htc : targetCoordsZ g cur (stepsOffset g.dim steps1) = y1 := by
    rw [targetCoordsZ_steps, ← hfold1]
  rw [neighborCell, htc, if_pos hb1]

/-- Concrete 3D test grid: 2 x 2 x 2 trees, every root refined once into 8
children, every child a leaf. -/
def g222 : HyperTreeGrid := ⟨3, [2, 2, 2], fun _ p => p.isEmpty⟩

/-- Witness for C3: the corner-sharing 3D diagonal (1,1,1) from child 7 of
tree (0,0,0) of the 2x2x2 octree grid, composed as three axis-aligned
lookups in two different orders, and the edge-sharing 2D diagonal (1,1) from
child 3 of tree (0,0) of the 2x2 grid, composed in both orders. -/
theorem c3_diagonal_composition_commutes_witness :
    (([2, 2, 2] : List Int) = [2, 2, 2] ∧
      resolveCell g222 1 (([2, 2, 2] : List Int).map Int.toNat)
        = resolveCell g222 1 (([2, 2, 2] : List Int).map Int.toNat) ∧
      stepsOffset g222.dim [(0, 1), (1, 1), (2, 1)]
        = stepsOffset g222.dim [(2, 1), (1, 1), (0, 1)] ∧
      neighborCell g222 ⟨[0, 0, 0], [7]⟩ (stepsOffset g222.dim [(0, 1), (1, 1), (2, 1)])
        = some (resolveCell g222 1 (([2, 2, 2] : List Int).map Int.toNat))) ∧
    (([2, 2] : List Int) = [2, 2] ∧
      resolveCell g22 1 (([2, 2] : List Int).map Int.toNat)
        = resolveCell g22 1 (([2, 2] : List Int).map Int.toNat) ∧
      stepsOffset g22.dim [(0, 1), (1, 1)] = stepsOffset g22.dim [(1, 1), (0, 1)] ∧
      neighborCell g22 ⟨[0, 0], [3]⟩ (stepsOffset g22.dim [(0, 1), (1, 1)])
        = some (resolveCell g22 1 (([2, 2] : List Int).map Int.toNat))) :=
  ⟨c3_diagonal_composition_commutes g222 ⟨[0, 0, 0], [7]⟩
      [(0, 1), (1, 1), (2, 1)] [(2, 1), (1, 1), (0, 1)] [2, 2, 2] [2, 2, 2]
      (by decide) (by decide) (by rfl) (by rfl),
   c3_diagonal_composition_commutes g22 ⟨[0, 0], [3]⟩
      [(0, 1), (1, 1)] [(1, 1), (0, 1)] [2, 2] [2, 2]
      (by decide) (by decide) (by rfl) (by rfl)⟩

/-! ## Boundary handling (C5) -/

/-- The tree one grid step `δ` from grid coordinates `tc` lies inside the grid
extents (the condition under which a neighbor tree exists; spec 4.2). -/
def TreeInBounds (g : HyperTreeGrid) (tc : List Nat) (δ : List Int) : Prop :=
  ∀ a < g.dim, 0 ≤ (tc.getD a 0 : Int) + δ.getD a 0 ∧
    (tc.getD a 0 : Int) + δ.getD a 0 < (g.size.getD a 0 : Int)

theorem NeighborTree_cond (g : HyperTreeGrid) (tc : List Nat) (δ : List Int) :
    (∀ a < g.dim,
        0 ≤ ((List.range g.dim).map
          (fun a2 => (tc.getD a2 0 : Int) + δ.getD a2 0)).getD a 0 ∧
        ((List.range g.dim).map
          (fun a2 => (tc.getD a2 0 : Int) + δ.getD a2 0)).getD a 0
          < (g.size.getD a 0 : Int))
      ↔ TreeInBounds g tc δ := by
  unfold TreeInBounds
  constructor
  · intro h a ha
    have h2 := h a ha
    rwa [getD_range_map g.dim a _ 0 ha] at h2
  · intro h a ha
    rw [getD_range_map g.dim a _ 0 ha]
    exact h a ha

/-- C5: the absence of a neighbor at a grid boundary is an explicit, valid
"absent" state, never an error, crash or undefined cursor: `NeighborTree`
returns `none` exactly when the neighboring tree would be outside the grid
extents, and a Moore neighbor slot is `none` exactly when the target cell is
outside the grid at the cursor's level — in all other cases it is a
well-defined resolved cursor. -/
theorem c5_boundary_absent_state (g : HyperTreeGrid) (tc : List Nat)
    (δ : List Int) (cur : MooreSuperCursorLight) :
    (NeighborTree g tc δ = none ↔ ¬ TreeInBounds g tc δ) ∧
    (neighborCell g cur δ = none ↔
      ¬ InBoundsZ g cur.path.length (targetCoordsZ g cur δ)) ∧
    ((∃ slot, neighborCell g cur δ = some slot) ↔
      InBoundsZ g cur.path.length (targetCoordsZ g cur δ)) := by
  refine ⟨?_, ?_, ?_⟩
  · constructor
    · intro h hc
      simp only [NeighborTree] at h
      rw [if_pos ((NeighborTree_cond g tc δ).mpr hc)] at h
      cases h
    · intro hc
      simp only [NeighborTree]
      rw [if_neg (fun hx => hc ((NeighborTree_cond g tc δ).mp hx))]
  · constructor
    · intro h hc
      rw [neighborCell, if_pos hc] at h
      cases h
    · intro hc
      rw [neighborCell, if_neg hc]
  · constructor
    · rintro ⟨slot, hslot⟩
      by_cases hc : InBoundsZ g cur.path.length (targetCoordsZ g cur δ)
      · exact hc
      · rw [neighborCell, if_neg hc] at hslot
        cases hslot
    · intro hc
      exact ⟨_, by rw [neighborCell, if_pos hc]⟩

/-! ## Corner queries and ownership (C2, C6) -/

/-- The target-cell coordinate vectors reached by every offset in the product
of per-axis `choices`, from per-axis base coordinates `base`. -/
def prodTargets (d : Nat) (base : Nat → Int) (choices : List (List Int)) :
    List (List Int) :=
  (offsetProduct choices).map
    (fun δ => (List.range d).map (fun a => base a + δ.getD a 0))

theorem prodTargets_cons (d : Nat) (base : Nat → Int) (c : List Int)
    (rest : List (List Int)) :
    prodTargets (d + 1) base (c :: rest)
      = (c.map (fun x => base 0 + x)).flatMap
          (fun h => (prodTargets d (fun a => base (a + 1)) rest).map
            (fun v => h :: v)) := by
  unfold prodTargets
  simp only [offsetProduct, List.map_flatMap, List.flatMap_map, List.map_map]
  congr 1
  funext x
  congr 1
  funext v
  simp only [Function.comp_apply]
  rw [List.range_succ_eq_map, List.map_cons, List.map_map]
  simp [Function.comp]

theorem prodTargets_congr (d : Nat) (c1 c2 : List (List Int))
    (b1 b2 : Nat → Int) (hl1 : c1.length = d) (hl2 : c2.length = d)
    (h : ∀ a < d, (c1.getD a []).map (fun x => b1 a + x)
        = (c2.getD a []).map (fun x => b2 a + x)) :
    prodTargets d b1 c1 = prodTargets d b2 c2 := by
  induction d generalizing c1 c2 b1 b2 with
  | zero =>
    have e1 : c1 = [] := List.length_eq_zero.mp hl1
    have e2 : c2 = [] := List.length_eq_zero.mp hl2
    subst e1
    subst e2
    rfl
  | succ d ih =>
    match c1, c2 with
    | x1 :: r1, x2 :: r2 =>
      rw [prodTargets_cons, prodTargets_cons]
      have h0 := h 0 (by omega)
      simp only [List.getD_cons_zero] at h0
      rw [h0]
      have hrest := ih r1 r2 (fun a => b1 (a + 1)) (fun a => b2 (a + 1))
        (by simpa using hl1) (by simpa using hl2)
        (fun a ha => by simpa using h (a + 1) (by omega))
      rw [hrest]

/-- Per-axis offset choices toward corner `k` of a cell: along axis `a` the
cells touching the corner are the cell itself and the one across the
corner's face (minus side when bit `a` of `k` is 0, plus side when it is 1),
enumerated in ascending coordinate order. -/
def cornerChoices (d : Nat) (k : Nat) : List (List Int) :=
  (List.range d).map (fun a => if bit k a = 1 then [0, 1] else [-1, 0])

/-- All offsets toward the (up to `2^d`) cells touching corner `k`, the
all-zero offset (the central cell itself) included. -/
def cornerOffsets (d : Nat) (k : Nat) : List (List Int) :=
  offsetProduct (cornerChoices d k)

/-- Modelled from the spec (4.5 `GetCornerCursors`): the resolved neighbor-slot
cursors (center included) touching corner `k` of the central cell; slots
beyond a grid boundary are simply absent from the list. -/
def cornerCursors (g : HyperTreeGrid) (cur : MooreSuperCursorLight) (k : Nat) :
    List NeighborSlot :=
  (cornerOffsets g.dim k).filterMap (neighborCell g cur)

/-- Resolve a signed coordinate vector at level `L` when it is inside the
grid; `none` beyond the boundary. -/
def resolveOpt (g : HyperTreeGrid) (L : Nat) (c : List Int) : Option NeighborSlot :=
  if InBoundsZ g L c then some (resolveCell g L (c.map Int.toNat)) else none

/-- The slot describing the cursor's own central cell. -/
def centralSlot (g : HyperTreeGrid) (cur : MooreSuperCursorLight) : NeighborSlot :=
  ⟨treeId g cur.treeCoords, nodeIndex g.factor cur.path, cur.path.length⟩

/-- Deterministic corner-ownership order on `(treeIndex, nodeIndex)` pairs
(spec section 3: "lowest tree index, then lowest node index"). -/
def PairLE (p q : Nat × Nat) : Prop :=
  p.1 < q.1 ∨ (p.1 = q.1 ∧ p.2 ≤ q.2)

instance (p q : Nat × Nat) : Decidable (PairLE p q) := by
  unfold PairLE
  infer_instance

/-- The ownership order lifted to neighbor slots. -/
def OwnerLE (x y : NeighborSlot) : Prop := PairLE (x.tree, x.node) (y.tree, y.node)

instance (x y : NeighborSlot) : Decidable (OwnerLE x y) := by
  unfold OwnerLE
  infer_instance

/-- Modelled from the spec (4.5): `GetCornerCursors(cellCorner, otherArgUnused,
outList) -> bool`: return the neighbor-slot cursors (center included) that
touch the given corner of the central cell, and whether the central cell
owns that corner under the deterministic tie-break (lowest tree index, then
lowest node index) among the touching cells. -/
def GetCornerCursors (g : HyperTreeGrid) (cur : MooreSuperCursorLight) (k : Nat) :
    List NeighborSlot × Bool :=
  (cornerCursors g cur k,
    (cornerCursors g cur k).all
      (fun slot => decide (OwnerLE (centralSlot g cur) slot)))

/-- Global lattice coordinates (at the cursor's level) of corner `k` of the
central cell. -/
def cornerPoint (g : HyperTreeGrid) (cur : MooreSuperCursorLight) (k : Nat) :
    List Nat :=
  (List.range g.dim).map (fun a => (centralCoords g cur).getD a 0 + bit k a)

theorem cornerChoices_map (d k : Nat) (base : Int) (a : Nat) (ha : a < d) :
    ((cornerChoices d k).getD a []).map (fun x => base + x)
      = [base + (bit k a : Int) - 1, base + (bit k a : Int)] := by
  rw [cornerChoices, getD_range_map d a _ [] ha]
  have hb := bit_le_one k a
  rcases Nat.le_one_iff_eq_zero_or_eq_one.mp hb with h | h
  · rw [h]
    norm_num
    ring
  · rw [h]
    norm_num

theorem cornerCursors_eq (g : HyperTreeGrid) (cur : MooreSuperCursorLight) (k : Nat) :
    cornerCursors g cur k
      = (prodTargets g.dim (fun a => ((centralCoords g cur).getD a 0 : Int))
          (cornerChoices g.dim k)).filterMap (resolveOpt g cur.path.length) := by
  have hfun : neighborCell g cur = fun δ => resolveOpt g cur.path.length
      ((List.range g.dim).map
        (fun a => ((centralCoords g cur).getD a 0 : Int) + δ.getD a 0)) := by
    funext δ
    rfl
  rw [cornerCursors, hfun, cornerOffsets, prodTargets, List.filterMap_map]
  rfl

theorem PairLE_refl (p : Nat × Nat) : PairLE p p := by
  unfold PairLE
  omega

theorem PairLE_trans (p q r : Nat × Nat) (h1 : PairLE p q) (h2 : PairLE q r) :
    PairLE p r := by
  unfold PairLE at *
  omega

theorem PairLE_total (p q : Nat × Nat) : PairLE p q ∨ PairLE q p := by
  unfold PairLE
  omega

theorem PairLE_antisymm (p q : Nat × Nat) (h1 : PairLE p q) (h2 : PairLE q p) :
    p = q := by
  unfold PairLE at *
  have hp : p.1 = q.1 ∧ p.2 = q.2 := by omega
  exact Prod.ext hp.1 hp.2

theorem exists_pair_min (l : List (Nat × Nat)) (hne : l ≠ []) :
    ∃ p, p ∈ l ∧ ∀ q ∈ l, PairLE p q := by
  induction l with
  | nil => exact absurd rfl hne
  | cons x rest ih =>
    by_cases hr : rest = []
    · subst hr
      refine ⟨x, List.mem_cons_self x [], fun q hq => ?_⟩
      rw [List.mem_singleton] at hq
      rw [hq]
      exact PairLE_refl x
    · obtain ⟨m, hm, hmin⟩ := ih hr
      by_cases hle : PairLE x m
      · refine ⟨x, List.mem_cons_self x rest, fun q hq => ?_⟩
        rcases List.mem_cons.mp hq with hq | hq
        · rw [hq]; exact PairLE_refl x
        · exact PairLE_trans x m q hle (hmin q hq)
      · refine ⟨m, List.mem_cons_of_mem x hm, fun q hq => ?_⟩
        rcases List.mem_cons.mp hq with hq | hq
        · rw [hq]
          rcases PairLE_total x m with h | h
          · exact absurd h hle
          · exact h
        · exact hmin q hq

/-- The resolved touching set of a corner is determined by the corner's
lattice point and the level: two same-level queries naming the same corner
point return identical cursor lists. -/
theorem cornerCursors_point_congr (g : HyperTreeGrid)
    (cur1 cur2 : MooreSuperCursorLight) (k1 k2 : Nat)
    (hL : cur1.path.length = cur2.path.length)
    (hp : cornerPoint g cur1 k1 = cornerPoint g cur2 k2) :
    cornerCursors g cur1 k1 = cornerCursors g cur2 k2 := by
  rw [cornerCursors_eq, cornerCursors_eq, hL]
  have hpt := prodTargets_congr g.dim (cornerChoices g.dim k1) (cornerChoices g.dim k2)
    (fun a => ((centralCoords g cur1).getD a 0 : Int))
    (fun a => ((centralCoords g cur2).getD a 0 : Int))
    (by simp [cornerChoices]) (by simp [cornerChoices]) ?_
  · rw [hpt]
  intro a ha
  rw [cornerChoices_map g.dim k1 _ a ha, cornerChoices_map g.dim k2 _ a ha]
  have hpa := congrArg (fun l => l.getD a 0) hp
  simp only [cornerPoint] at hpa
  rw [getD_range_map g.dim a _ 0 ha, getD_range_map g.dim a _ 0 ha] at hpa
  have hcast : ((centralCoords g cur1).getD a 0 : Int) + (bit k1 a : Int)
      = ((centralCoords g cur2).getD a 0 : Int) + (bit k2 a : Int) := by
    exact_mod_cast hpa
  rw [show ((centralCoords g cur1).getD a 0 : Int) + (bit k1 a : Int) - 1
      = ((centralCoords g cur2).getD a 0 : Int) + (bit k2 a : Int) - 1 from by omega,
    hcast]

theorem neighborCell_zero (g : HyperTreeGrid) (cur : MooreSuperCursorLight)
    (hval : ValidCursor g cur) :
    neighborCell g cur (List.replicate g.dim 0) = some (centralSlot g cur) := by
  obtain ⟨htclen, htcb, hpslots, hpref⟩ := hval
  have htgt : targetCoordsZ g cur (List.replicate g.dim 0)
      = (centralCoords g cur).map Int.ofNat := by
    apply List.ext_getElem
    · simp [targetCoordsZ, centralCoords]
    intro i h1 h2
    have hi : i < g.dim := by simpa [targetCoordsZ] using h1
    rw [← List.getD_eq_getElem _ 0 h1, ← List.getD_eq_getElem _ 0 h2]
    rw [targetCoordsZ, getD_range_map g.dim i _ 0 hi]
    have hz : (List.replicate g.dim (0 : Int)).getD i 0 = 0 := by
      rw [List.getD_eq_getElem _ 0 (by simpa using hi), List.getElem_replicate]
    rw [hz]
    have hlen : i < ((centralCoords g cur).map Int.ofNat).length := by
      simp [centralCoords, hi]
    rw [List.getD_eq_getElem _ 0 hlen, List.getElem_map,
      ← List.getD_eq_getElem (centralCoords g cur) 0 (by simpa [centralCoords] using hi)]
    simp
  have hbound : InBoundsZ g cur.path.length
      (targetCoordsZ g cur (List.replicate g.dim 0)) := by
    rw [htgt]
    intro a ha
    have hlen : a < ((centralCoords g cur).map Int.ofNat).length := by
      simp [centralCoords, ha]
    rw [List.getD_eq_getElem _ 0 hlen, List.getElem_map]
    have hax : (centralCoords g cur).get ⟨a, by simpa [centralCoords] using ha⟩
        = axisCoord (cur.treeCoords.getD a 0) a cur.path := by
      simp [centralCoords]
    rw [List.get_eq_getElem] at hax
    rw [hax]
    have hlt := axisCoord_lt_size (cur.treeCoords.getD a 0) a (g.size.getD a 0)
      cur.path (htcb a ha)
    simp only [Int.ofNat_eq_natCast]
    constructor
    · exact Int.natCast_nonneg _
    · exact_mod_cast hlt
  rw [neighborCell, if_pos hbound]
  have hmm : (targetCoordsZ g cur (List.replicate g.dim 0)).map Int.toNat
      = centralCoords g cur := by
    rw [htgt, List.map_map]
    have hcomp : (Int.toNat ∘ Int.ofNat) = id := by
      funext n
      simp
    rw [hcomp, List.map_id]
  rw [hmm]
  exact congrArg some (resolveCell_exact g cur.treeCoords cur.path htclen hpslots hpref)

theorem offsetProduct_mem_intro (choices : List (List Int)) (v : List Int)
    (hlen : v.length = choices.length)
    (h : ∀ i < choices.length, v.getD i 0 ∈ choices.getD i []) :
    v ∈ offsetProduct choices := by
  induction choices generalizing v with
  | nil =>
    rw [List.length_nil, List.length_eq_zero] at hlen
    rw [hlen]
    simp [offsetProduct]
  | cons cs rest ih =>
    match v with
    | x :: w =>
      simp only [offsetProduct, List.mem_flatMap, List.mem_map]
      refine ⟨x, by simpa using h 0 (by simp), w,
        ih w (by simpa using hlen)
          (fun i hi => by simpa using h (i + 1) (by simpa using hi)), rfl⟩

theorem replicate_zero_mem_cornerOffsets (d k : Nat) :
    List.replicate d (0 : Int) ∈ cornerOffsets d k := by
  apply offsetProduct_mem_intro
  · simp [cornerChoices]
  · intro i hi
    have hlen : i < d := by simpa [cornerChoices] using hi
    rw [List.getD_eq_getElem _ 0 (by simpa using hlen), List.getElem_replicate]
    rw [cornerChoices, getD_range_map d i _ [] hlen]
    by_cases hb : bit k i = 1
    · simp [hb]
    · simp [hb]

theorem centralSlot_mem_cornerCursors (g : HyperTreeGrid)
    (cur : MooreSuperCursorLight) (k : Nat) (hval : ValidCursor g cur) :
    centralSlot g cur ∈ cornerCursors g cur k := by
  rw [cornerCursors, List.mem_filterMap]
  exact ⟨List.replicate g.dim 0, replicate_zero_mem_cornerOffsets g.dim k,
    neighborCell_zero g cur hval⟩

/-- `p` is the designated owner pair of corner `k` as seen from `cur`: it is
the `(treeIndex, nodeIndex)` of a touching cursor and is least in the
deterministic tie-break order among all touching cursors. -/
def IsCornerOwnerPair (g : HyperTreeGrid) (cur : MooreSuperCursorLight) (k : Nat)
    (p : Nat × Nat) : Prop :=
  p ∈ (cornerCursors g cur k).map (fun s => (s.tree, s.node)) ∧
  ∀ q ∈ (cornerCursors g cur k).map (fun s => (s.tree, s.node)), PairLE p q

instance (g : HyperTreeGrid) (cur : MooreSuperCursorLight) (k : Nat) (p : Nat × Nat) :
    Decidable (IsCornerOwnerPair g cur k p) := by
  unfold IsCornerOwnerPair
  infer_instance

/-- C2 (amended: owner agreement is among touching cells of equal refinement):
`GetCornerCursors` returns the touching cursor list (center included) and
true iff the central cell is the corner's owner; exactly one touching
`(treeIndex, nodeIndex)` pair is the designated owner, chosen by the
deterministic tie-break of lowest tree index then lowest node index among
the touching cells (of equal or coarser refinement than the center); and the
owner is the same regardless of which same-level touching cell initiates the
query on that corner. -/
theorem c2_corner_ownership (g : HyperTreeGrid)
    (cur1 cur2 : MooreSuperCursorLight) (k1 k2 : Nat)
    (hval1 : ValidCursor g cur1) (hval2 : ValidCursor g cur2)
    (hL : cur1.path.length = cur2.path.length)
    (hp : cornerPoint g cur1 k1 = cornerPoint g cur2 k2) :
    (GetCornerCursors g cur1 k1).1 = cornerCursors g cur1 k1 ∧
    ((GetCornerCursors g cur1 k1).2 = true ↔
      IsCornerOwnerPair g cur1 k1
        (treeId g cur1.treeCoords, nodeIndex g.factor cur1.path)) ∧
    (∃ p, IsCornerOwnerPair g cur1 k1 p) ∧
    (∀ p q, IsCornerOwnerPair g cur1 k1 p → IsCornerOwnerPair g cur1 k1 q →
      p = q) ∧
    (∀ p, IsCornerOwnerPair g cur1 k1 p ↔ IsCornerOwnerPair g cur2 k2 p) := by
  have hcentral : centralSlot g cur1 ∈ cornerCursors g cur1 k1 :=
    centralSlot_mem_cornerCursors g cur1 k1 hval1
  have hcpair : (treeId g cur1.treeCoords, nodeIndex g.factor cur1.path)
      ∈ (cornerCursors g cur1 k1).map (fun s => (s.tree, s.node)) := by
    exact List.mem_map_of_mem (fun s => (s.tree, s.node)) hcentral
  refine ⟨rfl, ?_, ?_, ?_, ?_⟩
  · constructor
    · intro htrue
      refine ⟨hcpair, ?_⟩
      intro q hq
      obtain ⟨s, hs, rfl⟩ := List.mem_map.mp hq
      have hall := List.all_eq_true.mp htrue s hs
      exact of_decide_eq_true hall
    · rintro ⟨-, hmin⟩
      apply List.all_eq_true.mpr
      intro s hs
      apply decide_eq_true
      exact hmin (s.tree, s.node) (List.mem_map_of_mem _ hs)
  · obtain ⟨p, hpmem, hpmin⟩ := exists_pair_min
      ((cornerCursors g cur1 k1).map (fun s => (s.tree, s.node)))
      (List.ne_nil_of_mem hcpair)
    exact ⟨p, hpmem, hpmin⟩
  · rintro p q ⟨hpmem, hpmin⟩ ⟨hqmem, hqmin⟩
    exact PairLE_antisymm p q (hpmin q hqmem) (hqmin p hpmem)
  · intro p
    unfold IsCornerOwnerPair
    rw [cornerCursors_point_congr g cur1 cur2 k1 k2 hL hp]

/-- Concrete counterexample grid: 1D, two trees side by side; tree 0 is
refined once (two children), tree 1 is a bare root. -/
def gcx : HyperTreeGrid := ⟨1, [2], fun t p => t == 0 && p.isEmpty⟩

/-- Counterexample for C2 as frozen: in a 1D grid of two trees (tree 0 refined
once, tree 1 a bare root), the corner at global position 1 is touched by
tree 0's right child (level 1) and tree 1's root (level 0). Both cells can
initiate the query on that same geometric corner (the corner points agree
after rescaling levels), yet the fine initiator designates owner (0, 2)
(itself) while the coarse initiator designates owner (0, 0) (tree 0's root,
its pinned neighbor slot): the owner is not the same for touching cells of
different refinement, so the unrestricted initiator-independence fails. -/
theorem c2_corner_ownership_counterexample :
    ValidCursor gcx ⟨[0], [1]⟩ ∧
    ValidCursor gcx ⟨[1], []⟩ ∧
    (cornerPoint gcx ⟨[1], []⟩ 0).map (fun x => x * 2 ^ 1)
      = cornerPoint gcx ⟨[0], [1]⟩ 1 ∧
    IsCornerOwnerPair gcx ⟨[0], [1]⟩ 1 (0, 2) ∧
    IsCornerOwnerPair gcx ⟨[1], []⟩ 0 (0, 0) ∧
    ¬ IsCornerOwnerPair gcx ⟨[1], []⟩ 0 (0, 2) ∧
    (GetCornerCursors gcx ⟨[0], [1]⟩ 1).2 = true ∧
    (GetCornerCursors gcx ⟨[1], []⟩ 0).2 = false := by
  decide

/-- Witness for C2: two cursors of the concrete 2x2 grid at the same level
(child 3 of tree (0,0) and child 0 of tree (1,1)) touching the same shared
corner. -/
theorem c2_corner_ownership_witness :
    (GetCornerCursors g22 ⟨[0, 0], [3]⟩ 3).1 = cornerCursors g22 ⟨[0, 0], [3]⟩ 3 ∧
    ((GetCornerCursors g22 ⟨[0, 0], [3]⟩ 3).2 = true ↔
      IsCornerOwnerPair g22 ⟨[0, 0], [3]⟩ 3
        (treeId g22 (⟨[0, 0], [3]⟩ : MooreSuperCursorLight).treeCoords,
          nodeIndex g22.factor (⟨[0, 0], [3]⟩ : MooreSuperCursorLight).path)) ∧
    (∃ p, IsCornerOwnerPair g22 ⟨[0, 0], [3]⟩ 3 p) ∧
    (∀ p q, IsCornerOwnerPair g22 ⟨[0, 0], [3]⟩ 3 p →
      IsCornerOwnerPair g22 ⟨[0, 0], [3]⟩ 3 q → p = q) ∧
    (∀ p, IsCornerOwnerPair g22 ⟨[0, 0], [3]⟩ 3 p ↔
      IsCornerOwnerPair g22 ⟨[1, 1], [0]⟩ 0 p) :=
  c2_corner_ownership g22 ⟨[0, 0], [3]⟩ ⟨[1, 1], [0]⟩ 3 0
    (by decide) (by decide) (by decide) (by decide)

/-- C6: the concrete scenario: in the 2D grid of 2x2 trees each refined once
(quadtree), initialize a Moore super-cursor at the root of tree (0,0) and
descend to child 3 (the corner child nearest tree (1,1)): the diagonal
neighbor slot toward (1,1) resolves to the nearest child of tree (1,1)
(tree index 3, its child 0, at full depth 1); `GetCornerCursors` on the
shared corner returns exactly 4 cursors, reports the central cell as owner,
and that owner is the single deterministic one. -/
theorem c6_concrete_scenario :
    ToChild g22 (Initialize g22 [0, 0]) 3 = .ok ⟨[0, 0], [3]⟩ ∧
    (neighborCell g22 ⟨[0, 0], [3]⟩ [1, 1]
      = some ⟨treeId g22 [1, 1], nodeIndex g22.factor [0], 1⟩ ∧
    (GetCornerCursors g22 ⟨[0, 0], [3]⟩ 3).1.length = 4 ∧
    (GetCornerCursors g22 ⟨[0, 0], [3]⟩ 3).2 = true ∧
    IsCornerOwnerPair g22 ⟨[0, 0], [3]⟩ 3
      (treeId g22 [0, 0], nodeIndex g22.factor [3]) ∧
    (∀ p ∈ (cornerCursors g22 ⟨[0, 0], [3]⟩ 3).map (fun s => (s.tree, s.node)),
      (∀ q ∈ (cornerCursors g22 ⟨[0, 0], [3]⟩ 3).map (fun s => (s.tree, s.node)),
        PairLE p q) → p = (treeId g22 [0, 0], nodeIndex g22.factor [3]))) :=
  ⟨rfl, by decide⟩

/-! ## `vtkSSAOPass::Render` (src/Rendering/OpenGL2/vtkSSAOPass.cxx) (C9) -/

/-- One observable action of `vtkSSAOPass::Render`, in program order. -/
inductive SSAOAction where
  | warning (msg : String)
  | initializeGraphicsResources (w h : Int)
  | resizeTextures (w h : Int)
  | setViewportScissor (x y w h : Int)
  | renderDelegate
  | generateMipmap
  | renderSSAO
  | renderCombine
  deriving DecidableEq

/-- The inputs `vtkSSAOPass::Render` reads: whether `DelegatePass` is set, the
render state's framebuffer (if any) with its last size, the renderer's tiled
size and origin `(w, h, x, y)`, and the delegate's rendered-prop count. -/
structure SSAORenderInput where
  delegatePassPresent : Bool
  fboLastSize : Option (Int × Int)
  tiledSizeOrigin : Int × Int × Int × Int
  delegateRenderedProps : Nat
  deriving DecidableEq

/-- The observable outcome: the final `NumberOfRenderedProps` and the actions
performed. -/
structure SSAORenderResult where
  numberOfRenderedProps : Nat
  actions : List SSAOAction
  deriving DecidableEq

/-- `vtkSSAOPass::Render` (vtkSSAOPass.cxx lines 484-543): sets
`NumberOfRenderedProps` to 0; if `DelegatePass` is null, emits a warning and
returns immediately; otherwise takes the size from the framebuffer
(`GetLastSize`, origin 0) or from `GetTiledSizeAndOrigin`, creates/resizes
the framebuffer textures, sets viewport and scissor, renders the delegate
(adding its rendered-prop count, as `RenderDelegate` does at line 268),
generates the position-texture mipmaps, and runs the SSAO and combine
passes. -/
def vtkSSAOPassRender (i : SSAORenderInput) : SSAORenderResult :=
  let numberOfRenderedProps : Nat := 0
  if i.delegatePassPresent = false then
    { numberOfRenderedProps := numberOfRenderedProps,
      actions := [.warning "no delegate in vtkSSAOPass."] }
  else
    match i.fboLastSize with
    | some (w, h) =>
      { numberOfRenderedProps := numberOfRenderedProps + i.delegateRenderedProps,
        actions := [.initializeGraphicsResources w h, .resizeTextures w h,
          .setViewportScissor 0 0 w h, .renderDelegate, .generateMipmap,
          .renderSSAO, .renderCombine] }
    | none =>
      match i.tiledSizeOrigin with
      | (w, h, x, y) =>
        { numberOfRenderedProps := numberOfRenderedProps + i.delegateRenderedProps,
          actions := [.initializeGraphicsResources w h, .resizeTextures w h,
            .setViewportScissor x y w h, .renderDelegate, .generateMipmap,
            .renderSSAO, .renderCombine] }

/-- C9: if `vtkSSAOPass::Render` is invoked while `DelegatePass` is null, it
emits the warning and returns immediately: `NumberOfRenderedProps` stays 0
and no resource initialization, texture resize, viewport change, delegate
rendering, mipmap generation, SSAO pass or combine pass happens. -/
theorem c9_ssao_render_null_delegate (i : SSAORenderInput)
    (h : i.delegatePassPresent = false) :
    (vtkSSAOPassRender i).numberOfRenderedProps = 0 ∧
    (vtkSSAOPassRender i).actions = [.warning "no delegate in vtkSSAOPass."] := by
  unfold vtkSSAOPassRender
  rw [if_pos h]
  exact ⟨rfl, rfl⟩

/-- Witness for C9: a concrete render state without a delegate pass. -/
theorem c9_ssao_render_null_delegate_witness :
    (vtkSSAOPassRender ⟨false, none, (4, 3, 0, 0), 7⟩).numberOfRenderedProps = 0 ∧
    (vtkSSAOPassRender ⟨false, none, (4, 3, 0, 0), 7⟩).actions
      = [.warning "no delegate in vtkSSAOPass."] :=
  c9_ssao_render_null_delegate ⟨false, none, (4, 3, 0, 0), 7⟩ rfl

/-! ## `vtkAnariCompositePolyDataMapperNode::RenderBlock`
(src/unnamed/part_001, lines 112-217) (C10) -/

/-- RGB color (`vtkColor3d`; the double components are modelled as ℚ). -/
structure AnariColor where
  r : Rat
  g : Rat
  b : Rat
  deriving DecidableEq, Inhabited

/-- The per-block display-attribute overrides of one data object
(`vtkCompositeDataDisplayAttributes`: `HasBlockVisibility` /
`GetBlockVisibility` and so on, keyed here on the object itself). -/
structure BlockOverrides where
  visibility : Option Bool
  opacity : Option Rat
  color : Option AnariColor
  material : Option String
  deriving DecidableEq, Inhabited

/-- The composite data-object tree handed to `RenderBlock`:
`vtkMultiBlockDataSet` / `vtkMultiPieceDataSet` nodes with possibly-null
children (`nullObj`), `vtkPolyData` leaves, and other data objects (which
the poly-data downcast rejects). -/
inductive VtkDataObject where
  | nullObj : VtkDataObject
  | multiBlock (ov : BlockOverrides) (children : List VtkDataObject) : VtkDataObject
  | multiPiece (ov : BlockOverrides) (children : List VtkDataObject) : VtkDataObject
  | polyData (ov : BlockOverrides) : VtkDataObject
  | otherData (ov : BlockOverrides) : VtkDataObject

/-- The display-attribute overrides attached to a data object (none for a
null pointer). -/
def VtkDataObject.overrides : VtkDataObject → BlockOverrides
  | .nullObj => ⟨none, none, none, none⟩
  | .multiBlock ov _ => ov
  | .multiPiece ov _ => ov
  | .polyData ov => ov
  | .otherData ov => ov

/-- The `BlockState` stacks of the mapper node, the running `flat_index`, and
the `AnariRenderPoly` calls performed (color, opacity, material). -/
structure AnariBlockState where
  Visibility : List Bool
  Opacity : List Rat
  AmbientColor : List AnariColor
  DiffuseColor : List AnariColor
  SpecularColor : List AnariColor
  Material : List String
  flatIndex : Nat
  rendered : List (AnariColor × Rat × String)
  deriving DecidableEq

/-- The conditional pushes of `RenderBlock` (part_001 lines 123-149): each
present override (when display attributes exist) is pushed on its stack;
a block color pushes on the ambient, diffuse and specular stacks. -/
def pushOverrides (cdaPresent : Bool) (ov : BlockOverrides)
    (st : AnariBlockState) : AnariBlockState :=
  { st with
    Visibility :=
      if cdaPresent && ov.visibility.isSome then
        ov.visibility.getD true :: st.Visibility
      else st.Visibility,
    Opacity :=
      if cdaPresent && ov.opacity.isSome then
        ov.opacity.getD 1 :: st.Opacity
      else st.Opacity,
    AmbientColor :=
      if cdaPresent && ov.color.isSome then
        ov.color.getD default :: st.AmbientColor
      else st.AmbientColor,
    DiffuseColor :=
      if cdaPresent && ov.color.isSome then
        ov.color.getD default :: st.DiffuseColor
      else st.DiffuseColor,
    SpecularColor :=
      if cdaPresent && ov.color.isSome then
        ov.color.getD default :: st.SpecularColor
      else st.SpecularColor,
    Material :=
      if cdaPresent && ov.material.isSome then
        ov.material.getD "matte" :: st.Material
      else st.Material }

/-- The matching conditional pops of `RenderBlock` (part_001 lines 199-216):
each stack pushed on entry is popped on exit (the source pops the color,
opacity, visibility and material groups in that order; the stacks are
independent). -/
def popOverrides (cdaPresent : Bool) (ov : BlockOverrides)
    (st : AnariBlockState) : AnariBlockState :=
  { st with
    AmbientColor :=
      if cdaPresent && ov.color.isSome then st.AmbientColor.tail else st.AmbientColor,
    DiffuseColor :=
      if cdaPresent && ov.color.isSome then st.DiffuseColor.tail else st.DiffuseColor,
    SpecularColor :=
      if cdaPresent && ov.color.isSome then st.SpecularColor.tail else st.SpecularColor,
    Opacity :=
      if cdaPresent && ov.opacity.isSome then st.Opacity.tail else st.Opacity,
    Visibility :=
      if cdaPresent && ov.visibility.isSome then st.Visibility.tail else st.Visibility,
    Material :=
      if cdaPresent && ov.material.isSome then st.Material.tail else st.Material }

mutual

/-- `vtkAnariCompositePolyDataMapperNode::RenderBlock` (part_001 lines
112-217): push the block's overrides, advance `flat_index` past this block
(line 153), recurse into multi-block / multi-piece children — a null child
only advances `flat_index` (lines 165-171) — or, for a non-composite
object, render it through `AnariRenderPoly` when it is a poly-data leaf and
the current visibility is true and the current opacity is positive (lines
176-196); finally pop every override pushed. -/
def RenderBlock (cdaPresent : Bool) (dobj : VtkDataObject)
    (st : AnariBlockState) : AnariBlockState :=
  let ov := dobj.overrides
  let st1 := pushOverrides cdaPresent ov st
  let st2 := { st1 with flatIndex := st1.flatIndex + 1 }
  let st3 :=
    match dobj with
    | .multiBlock _ children => RenderChildren cdaPresent children st2
    | .multiPiece _ children => RenderChildren cdaPresent children st2
    | .polyData _ =>
      if st2.Visibility.headI = true ∧ 0 < st2.Opacity.headI then
        { st2 with rendered := st2.rendered ++
            [(⟨st2.AmbientColor.headI.r * st2.DiffuseColor.headI.r,
               st2.AmbientColor.headI.g * st2.DiffuseColor.headI.g,
               st2.AmbientColor.headI.b * st2.DiffuseColor.headI.b⟩,
              st2.Opacity.headI, st2.Material.headI)] }
      else st2
    | _ => st2
  popOverrides cdaPresent ov st3

/-- The child loop of `RenderBlock` (part_001 lines 161-174): null children
advance `flat_index` and are skipped; the rest recurse. -/
def RenderChildren (cdaPresent : Bool) (cs : List VtkDataObject)
    (st : AnariBlockState) : AnariBlockState :=
  match cs with
  | [] => st
  | c :: rest =>
    let st2 :=
      match c with
      | .nullObj => { st with flatIndex := st.flatIndex + 1 }
      | _ => RenderBlock cdaPresent c st
    RenderChildren cdaPresent rest st2

end

/-- The six `BlockState` stacks of two states coincide (depths and contents). -/
def StacksEq (s t : AnariBlockState) : Prop :=
  s.Visibility = t.Visibility ∧ s.Opacity = t.Opacity ∧
  s.AmbientColor = t.AmbientColor ∧ s.DiffuseColor = t.DiffuseColor ∧
  s.SpecularColor = t.SpecularColor ∧ s.Material = t.Material

theorem StacksEq_refl (s : AnariBlockState) : StacksEq s s :=
  ⟨rfl, rfl, rfl, rfl, rfl, rfl⟩

theorem StacksEq_trans (a b c : AnariBlockState)
    (h1 : StacksEq a b) (h2 : StacksEq b c) : StacksEq a c := by
  obtain ⟨x1, x2, x3, x4, x5, x6⟩ := h1
  obtain ⟨y1, y2, y3, y4, y5, y6⟩ := h2
  exact ⟨x1.trans y1, x2.trans y2, x3.trans y3, x4.trans y4, x5.trans y5, x6.trans y6⟩

theorem tail_push_cancel {α : Type} (flag : Bool) (x : α) (base mid : List α)
    (h : mid = if flag then x :: base else base) :
    (if flag then mid.tail else mid) = base := by
  cases flag
  · simpa using h
  · simp only [if_true] at h ⊢
    rw [h]
    rfl

@[simp] theorem pushOverrides_flatIndex (cdaP : Bool) (ov : BlockOverrides)
    (st : AnariBlockState) : (pushOverrides cdaP ov st).flatIndex = st.flatIndex := rfl

@[simp] theorem popOverrides_flatIndex (cdaP : Bool) (ov : BlockOverrides)
    (st : AnariBlockState) : (popOverrides cdaP ov st).flatIndex = st.flatIndex := rfl

/-- Every conditional push is undone by the matching conditional pop: if a
computation takes the pushed state to a state with the same stacks, popping
returns to the original stacks on every control path. -/
theorem pop_after_push (cdaP : Bool) (ov : BlockOverrides)
    (st t : AnariBlockState) (h : StacksEq t (pushOverrides cdaP ov st)) :
    StacksEq (popOverrides cdaP ov t) st := by
  obtain ⟨h1, h2, h3, h4, h5, h6⟩ := h
  simp only [pushOverrides] at h1 h2 h3 h4 h5 h6
  exact ⟨tail_push_cancel _ _ _ _ h1, tail_push_cancel _ _ _ _ h2,
    tail_push_cancel _ _ _ _ h3, tail_push_cancel _ _ _ _ h4,
    tail_push_cancel _ _ _ _ h5, tail_push_cancel _ _ _ _ h6⟩

theorem renderChildren_spec (cdaP : Bool) (cs : List VtkDataObject)
    (h : ∀ c ∈ cs, ∀ st' : AnariBlockState,
      StacksEq (RenderBlock cdaP c st') st' ∧
      st'.flatIndex + 1 ≤ (RenderBlock cdaP c st').flatIndex) :
    ∀ st : AnariBlockState,
      StacksEq (RenderChildren cdaP cs st) st ∧
      st.flatIndex ≤ (RenderChildren cdaP cs st).flatIndex := by
  induction cs with
  | nil =>
    intro st
    exact ⟨StacksEq_refl st, Nat.le_refl _⟩
  | cons c rest ih =>
    intro st
    have hc := h c (List.mem_cons_self c rest)
    have hrest := ih (fun c2 hc2 => h c2 (List.mem_cons_of_mem c hc2))
    cases c with
    | nullObj =>
      have hr := hrest { st with flatIndex := st.flatIndex + 1 }
      simp only [RenderChildren]
      exact ⟨hr.1, by
        have := hr.2
        simp only at this
        omega⟩
    | multiBlock ov children =>
      have hb := hc st
      have hr := hrest (RenderBlock cdaP (.multiBlock ov children) st)
      simp only [RenderChildren]
      exact ⟨StacksEq_trans _ _ _ hr.1 hb.1, by
        have := hr.2
        have := hb.2
        omega⟩
    | multiPiece ov children =>
      have hb := hc st
      have hr := hrest (RenderBlock cdaP (.multiPiece ov children) st)
      simp only [RenderChildren]
      exact ⟨StacksEq_trans _ _ _ hr.1 hb.1, by
        have := hr.2
        have := hb.2
        omega⟩
    | polyData ov =>
      have hb := hc st
      have hr := hrest (RenderBlock cdaP (.polyData ov) st)
      simp only [RenderChildren]
      exact ⟨StacksEq_trans _ _ _ hr.1 hb.1, by
        have := hr.2
        have := hb.2
        omega⟩
    | otherData ov =>
      have hb := hc st
      have hr := hrest (RenderBlock cdaP (.otherData ov) st)
      simp only [RenderChildren]
      exact ⟨StacksEq_trans _ _ _ hr.1 hb.1, by
        have := hr.2
        have := hb.2
        omega⟩

theorem renderBlock_strong (n : Nat) :
    ∀ dobj : VtkDataObject, sizeOf dobj ≤ n →
      ∀ (cdaP : Bool) (st : AnariBlockState),
        StacksEq (RenderBlock cdaP dobj st) st ∧
        st.flatIndex + 1 ≤ (RenderBlock cdaP dobj st).flatIndex := by
  induction n with
  | zero =>
    intro dobj h
    exfalso
    cases dobj <;> simp at h
  | succ n ih =>
    intro dobj hle cdaP st
    cases dobj with
    | nullObj =>
      refine ⟨?_, ?_⟩
      · simp only [RenderBlock]
        exact pop_after_push _ _ _ _ ⟨rfl, rfl, rfl, rfl, rfl, rfl⟩
      · simp only [RenderBlock, popOverrides_flatIndex]
        simp
    | otherData ov =>
      refine ⟨?_, ?_⟩
      · simp only [RenderBlock]
        exact pop_after_push _ _ _ _ ⟨rfl, rfl, rfl, rfl, rfl, rfl⟩
      · simp only [RenderBlock, popOverrides_flatIndex]
        simp
    | polyData ov =>
      refine ⟨?_, ?_⟩
      · simp only [RenderBlock]
        apply pop_after_push
        split
        · exact ⟨rfl, rfl, rfl, rfl, rfl, rfl⟩
        · exact ⟨rfl, rfl, rfl, rfl, rfl, rfl⟩
      · simp only [RenderBlock, popOverrides_flatIndex]
        split
        · simp
        · simp
    | multiBlock ov children =>
      have hch : ∀ c ∈ children, ∀ st' : AnariBlockState,
          StacksEq (RenderBlock cdaP c st') st' ∧
          st'.flatIndex + 1 ≤ (RenderBlock cdaP c st').flatIndex := by
        intro c hcm st'
        refine ih c ?_ cdaP st'
        have h1 : sizeOf c < sizeOf children := List.sizeOf_lt_of_mem hcm
        have h2 : sizeOf (VtkDataObject.multiBlock ov children)
            = 1 + sizeOf ov + sizeOf children := by simp
        omega
      have hmid := renderChildren_spec cdaP children hch
      refine ⟨?_, ?_⟩
      · simp only [RenderBlock]
        apply pop_after_push
        exact StacksEq_trans _ _ _ ((hmid _).1) ⟨rfl, rfl, rfl, rfl, rfl, rfl⟩
      · simp only [RenderBlock, popOverrides_flatIndex]
        refine le_trans ?_ ((hmid _).2)
        simp
    | multiPiece ov children =>
      have hch : ∀ c ∈ children, ∀ st' : AnariBlockState,
          StacksEq (RenderBlock cdaP c st') st' ∧
          st'.flatIndex + 1 ≤ (RenderBlock cdaP c st').flatIndex := by
        intro c hcm st'
        refine ih c ?_ cdaP st'
        have h1 : sizeOf c < sizeOf children := List.sizeOf_lt_of_mem hcm
        have h2 : sizeOf (VtkDataObject.multiPiece ov children)
            = 1 + sizeOf ov + sizeOf children := by simp
        omega
      have hmid := renderChildren_spec cdaP children hch
      refine ⟨?_, ?_⟩
      · simp only [RenderBlock]
        apply pop_after_push
        exact StacksEq_trans _ _ _ ((hmid _).1) ⟨rfl, rfl, rfl, rfl, rfl, rfl⟩
      · simp only [RenderBlock, popOverrides_flatIndex]
        refine le_trans ?_ ((hmid _).2)
        simp

/-- C10: every invocation of
`vtkAnariCompositePolyDataMapperNode::RenderBlock` leaves each `BlockState`
stack (Visibility, Opacity, AmbientColor, DiffuseColor, SpecularColor,
Material) at the same depth — indeed with the same contents — on return as
on entry: every conditional push of a block override is matched by a pop on
every control path; and `flat_index` strictly increases by at least one. -/
theorem c10_renderBlock_stacks_balanced (cdaP : Bool) (dobj : VtkDataObject)
    (st : AnariBlockState) :
    (RenderBlock cdaP dobj st).Visibility = st.Visibility ∧
    (RenderBlock cdaP dobj st).Opacity = st.Opacity ∧
    (RenderBlock cdaP dobj st).AmbientColor = st.AmbientColor ∧
    (RenderBlock cdaP dobj st).DiffuseColor = st.DiffuseColor ∧
    (RenderBlock cdaP dobj st).SpecularColor = st.SpecularColor ∧
    (RenderBlock cdaP dobj st).Material = st.Material ∧
    st.flatIndex + 1 ≤ (RenderBlock cdaP dobj st).flatIndex := by
  obtain ⟨⟨s1, s2, s3, s4, s5, s6⟩, hf⟩ :=
    renderBlock_strong (sizeOf dobj) dobj (Nat.le_refl _) cdaP st
  exact ⟨s1, s2, s3, s4, s5, s6, hf⟩

/-- Witness for C5: the outer corner tree (0,0) of the concrete grid,
descended toward the grid edge (child 0), probing the off-grid diagonal. -/
theorem c5_boundary_absent_state_witness :
    (NeighborTree g22 [0, 0] [-1, -1] = none ↔ ¬ TreeInBounds g22 [0, 0] [-1, -1]) ∧
    (neighborCell g22 ⟨[0, 0], [0]⟩ [-1, -1] = none ↔
      ¬ InBoundsZ g22 (⟨[0, 0], [0]⟩ : MooreSuperCursorLight).path.length
        (targetCoordsZ g22 ⟨[0, 0], [0]⟩ [-1, -1])) ∧
    ((∃ slot, neighborCell g22 ⟨[0, 0], [0]⟩ [-1, -1] = some slot) ↔
      InBoundsZ g22 (⟨[0, 0], [0]⟩ : MooreSuperCursorLight).path.length
        (targetCoordsZ g22 ⟨[0, 0], [0]⟩ [-1, -1])) :=
  c5_boundary_absent_state g22 [0, 0] [-1, -1] ⟨[0, 0], [0]⟩

/-- Witness for C10: a concrete multi-block with a null child and a poly-data
child, run from empty stacks. -/
theorem c10_renderBlock_stacks_balanced_witness :
    (RenderBlock true
        (.multiBlock ⟨some true, none, none, none⟩
          [.nullObj, .polyData ⟨none, some 1, none, none⟩])
        ⟨[], [], [], [], [], [], 0, []⟩).Visibility
      = (⟨[], [], [], [], [], [], 0, []⟩ : AnariBlockState).Visibility ∧
    (RenderBlock true
        (.multiBlock ⟨some true, none, none, none⟩
          [.nullObj, .polyData ⟨none, some 1, none, none⟩])
        ⟨[], [], [], [], [], [], 0, []⟩).Opacity
      = (⟨[], [], [], [], [], [], 0, []⟩ : AnariBlockState).Opacity ∧
    (RenderBlock true
        (.multiBlock ⟨some true, none, none, none⟩
          [.nullObj, .polyData ⟨none, some 1, none, none⟩])
        ⟨[], [], [], [], [], [], 0, []⟩).AmbientColor
      = (⟨[], [], [], [], [], [], 0, []⟩ : AnariBlockState).AmbientColor ∧
    (RenderBlock true
        (.multiBlock ⟨some true, none, none, none⟩
          [.nullObj, .polyData ⟨none, some 1, none, none⟩])
        ⟨[], [], [], [], [], [], 0, []⟩).DiffuseColor
      = (⟨[], [], [], [], [], [], 0, []⟩ : AnariBlockState).DiffuseColor ∧
    (RenderBlock true
        (.multiBlock ⟨some true, none, none, none⟩
          [.nullObj, .polyData ⟨none, some 1, none, none⟩])
        ⟨[], [], [], [], [], [], 0, []⟩).SpecularColor
      = (⟨[], [], [], [], [], [], 0, []⟩ : AnariBlockState).SpecularColor ∧
    (RenderBlock true
        (.multiBlock ⟨some true, none, none, none⟩
          [.nullObj, .polyData ⟨none, some 1, none, none⟩])
        ⟨[], [], [], [], [], [], 0, []⟩).Material
      = (⟨[], [], [], [], [], [], 0, []⟩ : AnariBlockState).Material ∧
    (⟨[], [], [], [], [], [], 0, []⟩ : AnariBlockState).flatIndex + 1
      ≤ (RenderBlock true
          (.multiBlock ⟨some true, none, none, none⟩
            [.nullObj, .polyData ⟨none, some 1, none, none⟩])
          ⟨[], [], [], [], [], [], 0, []⟩).flatIndex :=
  c10_renderBlock_stacks_balanced true
    (.multiBlock ⟨some true, none, none, none⟩
      [.nullObj, .polyData ⟨none, some 1, none, none⟩])
    ⟨[], [], [], [], [], [], 0, []⟩
